import Mathlib

/-! Verification of the Monte Carlo tree search engine of the `tactician`
repository, shallowly embedded from `src/tree_search.rs` (with `src/util.rs`,
`src/tree_search_logging.rs`, and the Nim example of `src/nim.rs`).

Modelling conventions:

* The `Rc<RefCell<SearchNode>>` / `Weak` pointer graph is modelled as an arena:
  a `List` of nodes addressed by position, the root at index 0, `parent` and
  `children` holding indices.  The repository's own design notes describe the
  index-arena representation as an equivalent formulation of the tree.
* `f32` statistics are idealized as exact arithmetic: the stored `wins` field
  as a rational number, and the UCT score `expectation` (which uses `ln` and
  `sqrt`) as a real number.
* The external `rand` crate is modelled as a stream of natural number draws:
  `gen_range(0, n)` consumes one draw and reduces it modulo `n`, and `choose`
  picks the drawn index.  `util::randomly_seeded_weak_rng` seeds the search's
  generator from the thread RNG, so that hidden OS entropy becomes an explicit
  `entropy` argument of `find_best_move` in the embedding.
* Panics (`expect`, `unwrap`, out-of-range slice indexing, a non-total float
  comparison) and fuel exhaustion of a-priori unbounded loops (the rollout,
  the selection descent) are modelled as `none`.
-/

namespace Tactician

/-- Model of the external `rand` crate generator (`XorShiftRng`): an infinite
stream of draws together with a cursor.  Only the draw sequence matters for
the engine's behaviour, not the concrete xorshift arithmetic. -/
structure Rng where
  stream : Nat → Nat
  pos : Nat

/-- One raw draw from the generator. -/
def rngNext (r : Rng) : Nat × Rng :=
  (r.stream r.pos, { stream := r.stream, pos := r.pos + 1 })

/-- Model of `rand::Rng::gen_range(low, high)`: a uniform draw in
`[low, high)`, realized by reducing one raw draw modulo the width. -/
def genRange (r : Rng) (low high : Nat) : Nat × Rng :=
  let (v, r') := rngNext r
  (low + v % (high - low), r')

/-- Model of `rand::Rng::choose`: `None` on an empty slice, otherwise the
element at `gen_range(0, len)`. -/
def rngChoose {α : Type} (r : Rng) (xs : List α) : Option α × Rng :=
  if xs.isEmpty then (none, r)
  else
    let (i, r') := genRange r 0 xs.length
    (xs.get? i, r')

/-- `util::randomly_seeded_weak_rng`: builds the search's generator from four
draws of the thread RNG.  In the model the thread RNG's entropy is the
explicit argument, and the resulting generator is exactly that entropy —
crucially, it is not taken from the caller-supplied context. -/
def randomly_seeded_weak_rng (entropy : Rng) : Rng := entropy

/-- The `SearchableState` trait of `src/tree_search.rs`: the abstract state
contract, with `S` the state, `P` the player, `M` the move and `C` the
mutation context type.  `&mut C` threading is modelled by returning the new
context. A terminal result (`Winners`) is the list of winning players. -/
structure GameSpec (S P M C : Type) where
  game_result : S → Option (List P)
  all_players : S → List P
  active_player : S → Option P
  all_moves : S → List M
  make_move : S → M → C → S × C
  make_move_mut : S → M → C → S × C
  printable_player_identifier : S → P → String

/-- `SearchNode` of `src/tree_search.rs`.  `parent` and `children` are arena
indices; `wins : ℚ` idealizes the `f32` field; `visits` is the `i32` count. -/
structure SearchNode (S P M : Type) where
  state : S
  wins : ℚ
  visits : ℤ
  last_move : Option M
  untried_moves : List M
  player_just_moved : P
  parent : Option Nat
  children : List Nat

/-- The search tree: the arena of nodes, root at index 0. -/
abbrev SearchTree (S P M : Type) := List (SearchNode S P M)

variable {S P M C : Type}

/-- The `visits` statistic of the node at arena index `i` (0 for a dangling
index, which the engine never produces). -/
def nodeVisits (t : SearchTree S P M) (i : Nat) : ℤ :=
  match t.get? i with
  | none => 0
  | some n => n.visits

/-- Modelled from the spec: `NodeStats` is referenced by
`src/tree_search_logging.rs` (`SearchNode::stats`) but its definition is not
under `src`; per the spec's diagnostics section a child's rendered statistics
are its move, win count, visit count, and win percentage. -/
structure NodeStats (M : Type) where
  last_move : Option M
  wins : ℚ
  visits : ℤ
  percent_won : ℚ

/-- Modelled from the spec: `SearchNode::stats` snapshots the rendered
statistics of one node; the win percentage is `wins / visits`. -/
def SearchNode.stats (n : SearchNode S P M) : NodeStats M :=
  { last_move := n.last_move, wins := n.wins, visits := n.visits,
    percent_won := n.wins / (n.visits : ℚ) }

/-- Stable insertion of `x` into `l`: `x` moves past `y` exactly when the
comparator answers `gt`, so among elements comparing equal the inserted
element stays first. -/
def sortInsert {α : Type} (cmp : α → α → Ordering) (x : α) : List α → List α
  | [] => [x]
  | y :: ys => if cmp x y = Ordering.gt then y :: sortInsert cmp x ys else x :: y :: ys

/-- Model of Rust's `slice::sort_by`.  `sort_by` is specified to be a stable
sort, and a stable sort by a total-preorder comparator has a unique output,
so the insertion sort below is observationally the same function. -/
def rustSortBy {α : Type} (cmp : α → α → Ordering) : List α → List α
  | [] => []
  | x :: xs => sortInsert cmp x (rustSortBy cmp xs)

/-- The first element of a list that no later element strictly beats under
`cmp` (the head of the stable sort): specification device for theorems. -/
def firstBestByCmp {α : Type} (cmp : α → α → Ordering) : List α → Option α
  | [] => none
  | x :: xs =>
    match firstBestByCmp cmp xs with
    | none => some x
    | some y => if cmp x y = Ordering.gt then some y else some x

/-- Model of `Iterator::max_by_key`, which returns the last maximal element
when several are equally maximal. -/
def maxByKeyLast {α β : Type} [LinearOrder β] (k : α → β) : List α → Option α
  | [] => none
  | x :: xs =>
    match maxByKeyLast k xs with
    | none => some x
    | some m => if k m < k x then some x else some m

/-- `SearchNode::expectation`: the UCT score
`wins / visits + sqrt(2 ln(parent_visits) / visits)`, over `ℝ`. -/
noncomputable def expectation (n : SearchNode S P M) (parent_visits : ℝ) : ℝ :=
  let f_visits : ℝ := (n.visits : ℝ)
  let payout : ℝ := (n.wins : ℝ) / f_visits
  let confidence : ℝ := Real.sqrt (2 * Real.log parent_visits / f_visits)
  payout + confidence

/-- The expectation score of the child at arena index `i` (0 for a dangling
index, which the engine never produces). -/
noncomputable def expectationAt (t : SearchTree S P M) (parent_visits : ℝ) (i : Nat) : ℝ :=
  match t.get? i with
  | none => 0
  | some n => expectation n parent_visits

/-- `SearchNode::most_visited_child`: the child index with maximal `visits`
(`max_by_key` over the children), `none` modelling the panic on a childless
node. -/
def most_visited_child (t : SearchTree S P M) (n : SearchNode S P M) : Option Nat :=
  maxByKeyLast (fun c => nodeVisits t c) n.children

/-- `SearchNode::select_most_promising_child`: sorts the node's own children
most-promising-first by expectation score (computed against the node's
`visits`), stores the sorted order back into the node, and returns the first
child; `none` models the panic on a childless node.  `Ordering.swap` is
Rust's `Ordering::reverse`. -/
noncomputable def select_most_promising_child (t : SearchTree S P M) (i : Nat) :
    Option (SearchTree S P M × Nat) :=
  match t.get? i with
  | none => none
  | some node =>
    let parent_visits : ℝ := (node.visits : ℝ)
    let sorted := rustSortBy
      (fun a b =>
        (compare (expectationAt t parent_visits a) (expectationAt t parent_visits b)).swap)
      node.children
    match sorted.head? with
    | none => none
    | some c => some (t.set i { node with children := sorted }, c)

/-- `SearchNode::update_with_result`: one backpropagation update.  `visits`
always gains 1; `wins` gains `1 / |winners|` exactly when `player_just_moved`
is among the winners. -/
def update_with_result [DecidableEq P] (n : SearchNode S P M) (result : List P) :
    SearchNode S P M :=
  { n with
    visits := n.visits + 1,
    wins := if n.player_just_moved ∈ result then n.wins + 1 / (result.length : ℚ) else n.wins }

/-- Apply `update_with_result` to the node at index `i` (no-op on a dangling
index, which the engine never produces). -/
def updateAt [DecidableEq P] (t : SearchTree S P M) (i : Nat) (result : List P) :
    SearchTree S P M :=
  match t.get? i with
  | none => t
  | some n => t.set i (update_with_result n result)

/-- The upward walk of `SearchNode::ancestors`, fuelled: follow the parent
link, push each resolved ancestor, stop silently on an unresolvable link. -/
def ancestorsWalk (t : SearchTree S P M) : Nat → Option Nat → List Nat
  | 0, _ => []
  | _, none => []
  | fuel + 1, some p =>
    match t.get? p with
    | none => []
    | some n => p :: ancestorsWalk t fuel n.parent

/-- `SearchNode::ancestors`: the ordered strict ancestors of node `i`, walking
the parent links upward.  The arena size bounds the walk (parent indices
strictly decrease), mirroring the source's unbounded loop. -/
def ancestors (t : SearchTree S P M) (i : Nat) : List Nat :=
  match t.get? i with
  | none => []
  | some n => ancestorsWalk t t.length n.parent

/-- The backpropagation phase of `find_best_move`: update the working node,
then every node of its ancestor walk. -/
def backpropagate [DecidableEq P] (t : SearchTree S P M) (i : Nat) (result : List P) :
    SearchTree S P M :=
  let t1 := updateAt t i result
  (ancestors t1 i).foldl (fun acc j => updateAt acc j result) t1

/-- `expand_node_by_move`: pick `untried_moves[move_idx]` of node `node_ref`,
apply it with the pure transform, create the child node (crediting the
pre-move active player), remove the picked move from `untried_moves` and
append the child.  `none` models the index panic and the missing-active-player
panic. -/
def expand_node_by_move (g : GameSpec S P M C) (t : SearchTree S P M)
    (node_ref : Nat) (move_idx : Nat) (ctx : C) :
    Option (SearchTree S P M × Nat × C) :=
  match t.get? node_ref with
  | none => none
  | some node =>
    match node.untried_moves.get? move_idx with
    | none => none
    | some picked_move =>
      match g.active_player node.state with
      | none => none
      | some mover =>
        let step := g.make_move node.state picked_move ctx
        let all_moves := g.all_moves step.1
        let new_node : SearchNode S P M :=
          { state := step.1, wins := 0, visits := 0,
            last_move := some picked_move, untried_moves := all_moves,
            player_just_moved := mover,
            parent := some node_ref, children := [] }
        let new_index := t.length
        let t1 := t.set node_ref
          { node with
            untried_moves := node.untried_moves.eraseIdx move_idx,
            children := node.children ++ [new_index] }
        some (t1 ++ [new_node], new_index, step.2)

/-- `best_unexplored_node`: descend from node `i` through the most promising
children while the current node has no untried moves but does have children.
The descent strictly increases arena indices, so `t.length + 1` fuel always
suffices on engine-built trees; `none` models only fuel exhaustion on a
malformed tree. -/
noncomputable def best_unexplored_node :
    SearchTree S P M → Nat → Nat → Option (SearchTree S P M × Nat)
  | _, 0, _ => none
  | t, fuel + 1, i =>
    match t.get? i with
    | none => none
    | some node =>
      if node.untried_moves.isEmpty && !node.children.isEmpty then
        match select_most_promising_child t i with
        | none => none
        | some (t', c) => best_unexplored_node t' fuel c
      else
        some (t, i)

/-- `choose_random_move`: `none` on a state without moves, otherwise a
uniformly random legal move. -/
def choose_random_move (g : GameSpec S P M C) (s : S) (rng : Rng) : Option M × Rng :=
  let possible_moves := g.all_moves s
  if possible_moves.isEmpty then (none, rng)
  else rngChoose rng possible_moves

/-- `simulate_until_terminal`: repeatedly apply a random legal move in place
until none is available.  The source loop has no a-priori bound, so it is
fuelled; `none` models fuel exhaustion (a rollout that failed to reach a
terminal state in `fuel` steps). -/
def simulate_until_terminal (g : GameSpec S P M C) :
    Nat → S → Rng → C → Option (S × Rng × C)
  | 0, _, _, _ => none
  | fuel + 1, s, rng, ctx =>
    match choose_random_move g s rng with
    | (none, rng') => some (s, rng', ctx)
    | (some m, rng') =>
      let step := g.make_move_mut s m ctx
      simulate_until_terminal g fuel step.1 rng' step.2

/-- The rollout and backpropagation phases of one iteration of
`find_best_move`'s main loop, starting from the working node `workRef`:
clone its state, simulate to a terminal state, read the winners (`none`
models the missing-result panic), then backpropagate. -/
noncomputable def rolloutAndBackprop (g : GameSpec S P M C) [DecidableEq P]
    (rolloutFuel : Nat) (t : SearchTree S P M) (workRef : Nat) (rng : Rng) (ctx : C) :
    Option (SearchTree S P M × Rng × C) :=
  match t.get? workRef with
  | none => none
  | some workNode =>
    match simulate_until_terminal g rolloutFuel workNode.state rng ctx with
    | none => none
    | some (endState, rng', ctx') =>
      match g.game_result endState with
      | none => none
      | some result => some (backpropagate t workRef result, rng', ctx')

/-- One iteration of `find_best_move`'s main loop: select a best unexplored
node from the root, expand one uniformly random untried move there (if any),
then roll out and backpropagate. -/
noncomputable def searchStep (g : GameSpec S P M C) [DecidableEq P]
    (rolloutFuel : Nat) (t : SearchTree S P M) (rng : Rng) (ctx : C) :
    Option (SearchTree S P M × Rng × C) :=
  match best_unexplored_node t (t.length + 1) 0 with
  | none => none
  | some (t1, selRef) =>
    match t1.get? selRef with
    | none => none
    | some selNode =>
      if selNode.untried_moves.isEmpty then
        rolloutAndBackprop g rolloutFuel t1 selRef rng ctx
      else
        let draw := genRange rng 0 selNode.untried_moves.length
        match expand_node_by_move g t1 selRef draw.1 ctx with
        | none => none
        | some (t2, childRef, ctx1) => rolloutAndBackprop g rolloutFuel t2 childRef draw.2 ctx1

/-- `for _ in 0..max_iters { ... }`: exactly `n` main-loop iterations, the
whole run failing if any iteration hits a modelled panic or runs out of
rollout fuel. -/
noncomputable def iterateSteps (g : GameSpec S P M C) [DecidableEq P] (rolloutFuel : Nat) :
    Nat → SearchTree S P M × Rng × C → Option (SearchTree S P M × Rng × C)
  | 0, st => some st
  | n + 1, (t, rng, ctx) =>
    match searchStep g rolloutFuel t rng ctx with
    | none => none
    | some st' => iterateSteps g rolloutFuel n st'

/-- The initial search state of `find_best_move`: the arena holding only the
root node (no last move, untried moves = all legal root moves, credited to
`just_moved`), the freshly seeded generator, and the caller's context. -/
def initState (g : GameSpec S P M C) (root_state : S) (just_moved : P) (ctx : C)
    (entropy : Rng) : SearchTree S P M × Rng × C :=
  ([{ state := root_state, wins := 0, visits := 0, last_move := none,
      untried_moves := g.all_moves root_state, player_just_moved := just_moved,
      parent := none, children := [] }],
   randomly_seeded_weak_rng entropy, ctx)

/-- `find_best_move`: build the root (crediting the last player of the
roster; `none` models the empty-roster panic), run `max_iters` iterations,
and return the `last_move` of the root's most visited child (`none` models
the childless-root panic).  `entropy` is the thread-RNG entropy consumed by
`randomly_seeded_weak_rng`; the `debug` flag only controls printing in the
source and influences nothing here. -/
noncomputable def find_best_move (g : GameSpec S P M C) [DecidableEq P] (root_state : S)
    (max_iters : Nat) (ctx : C) (entropy : Rng) (rolloutFuel : Nat) (debug : Bool) :
    Option M :=
  match (g.all_players root_state).getLast? with
  | none => none
  | some just_moved =>
    match iterateSteps g rolloutFuel max_iters (initState g root_state just_moved ctx entropy) with
    | none => none
    | some (t, _, _) =>
      match t.get? 0 with
      | none => none
      | some root =>
        match most_visited_child t root with
        | none => none
        | some ci =>
          match t.get? ci with
          | none => none
          | some best_child => best_child.last_move

/-- The statistics snapshots of a node's children, in child-list order
(`self.children.iter().map(|c| c.borrow().stats()).collect()`). -/
def collect_child_stats (t : SearchTree S P M) (n : SearchNode S P M) : List (NodeStats M) :=
  n.children.filterMap (fun c => (t.get? c).map SearchNode.stats)

/-- `SearchNode::print_child_move_stats` of `src/tree_search_logging.rs`:
the rendered per-child statistics, sorted by descending win percentage
(`child_stats.sort_by(|a, b| (b.percent_won).partial_cmp(&a.percent_won))`).
The function is pure: it renders a fresh sorted copy and touches no node. -/
def print_child_move_stats (t : SearchTree S P M) (n : SearchNode S P M) :
    List (NodeStats M) :=
  rustSortBy (fun a b => compare b.percent_won a.percent_won) (collect_child_stats t n)

/-- The moves that produced the current children of `n`, in child-list
order: each child's `last_move`. -/
def childLastMoves (t : SearchTree S P M) (n : SearchNode S P M) : List M :=
  n.children.filterMap (fun c => (t.get? c).bind (fun cn => cn.last_move))

/-- Structural well-formedness of the arena: only the root (index 0) has no
parent, and every parent index precedes its child, so parent chains strictly
decrease to the root. -/
def ParentWF (t : SearchTree S P M) : Prop :=
  ∀ i n, t.get? i = some n →
    (n.parent = none → i = 0) ∧ (∀ p, n.parent = some p → p < i)

/-- The creation-time move partition invariant of every node: its untried
moves together with its children's `last_move`s are, as a multiset, exactly
the legal moves of its (immutable) state. -/
def MovesInv (g : GameSpec S P M C) (t : SearchTree S P M) : Prop :=
  ∀ i n, t.get? i = some n →
    (n.untried_moves ++ childLastMoves t n).Perm (g.all_moves n.state)

/-- Decidable violation check used to exhibit a counterexample: some node has
a move that is simultaneously untried and some child's `last_move`. -/
def violatesDisjointness [DecidableEq M] (t : SearchTree S P M) : Bool :=
  t.any (fun n => n.untried_moves.any (fun m => (childLastMoves t n).contains m))

/-- Children indices always lie inside the arena (every child reference
resolves). -/
def ChildrenWF (t : SearchTree S P M) : Prop :=
  ∀ i n, t.get? i = some n → ∀ c ∈ n.children, c < t.length

/-- Two arenas have the same skeleton: equal length and, pointwise, nodes
that agree on every field except the statistics (`wins`, `visits`) and the
order of the `children` list.  The selection and backpropagation phases only
resort children and update statistics, so they relate a tree to its successor
by this relation; only expansion grows the skeleton. -/
def SameSkeleton (t t' : SearchTree S P M) : Prop :=
  t'.length = t.length ∧
  ∀ j, (∀ n', t'.get? j = some n' → ∃ n, t.get? j = some n ∧
        n'.parent = n.parent ∧ n'.state = n.state ∧
        n'.untried_moves = n.untried_moves ∧ n'.last_move = n.last_move ∧
        n'.children.Perm n.children) ∧
      (t'.get? j = none → t.get? j = none)

/-- `NimState` of `src/nim.rs`: a subtraction game, players 0 and 1. -/
structure NimState where
  total : ℤ
  player_turn : ℤ
deriving DecidableEq

/-- The `SearchableState` implementation of `src/nim.rs`: remove 1..3 from
the total, the player who moved to 0 wins. -/
def nimGame : GameSpec NimState ℤ ℤ Unit :=
  { game_result := fun s =>
      if s.total = 0 then some [(s.player_turn + 1) % 2] else none,
    all_players := fun _ => [0, 1],
    active_player := fun s => some s.player_turn,
    all_moves := fun s => [1, 2, 3].filter (fun i => i ≤ s.total),
    make_move := fun s choice _ =>
      ({ total := s.total - choice, player_turn := (s.player_turn + 1) % 2 }, ()),
    make_move_mut := fun s choice _ =>
      ({ total := s.total - choice, player_turn := (s.player_turn + 1) % 2 }, ()),
    printable_player_identifier := fun _ p => toString p }

/-- A minimal `SearchableState` instance whose legal-move list contains a
duplicate: from total `t > 0` the two listed moves both subtract 1, and the
player who moves to 0 wins.  Used to probe the untried/children disjointness
claim. -/
def dupGame : GameSpec ℤ ℤ ℤ Unit :=
  { game_result := fun s => if s = 0 then some [0] else none,
    all_players := fun _ => [0, 1],
    active_player := fun s => if s = 0 then none else some 0,
    all_moves := fun s => if s = 0 then [] else [1, 1],
    make_move := fun s _ _ => (s - 1, ()),
    make_move_mut := fun s _ _ => (s - 1, ()),
    printable_player_identifier := fun _ p => toString p }

/-- A concrete entropy stream that always draws 0. -/
def entropy0 : Rng := { stream := fun _ => 0, pos := 0 }

/-- A concrete entropy stream that always draws 1. -/
def entropy1 : Rng := { stream := fun _ => 1, pos := 0 }

/-- A concrete root-style node (no parent, no children) for witness
instantiations. -/
def sampleRoot : SearchNode ℤ ℤ ℤ :=
  { state := 0, wins := 0, visits := 3, last_move := none,
    untried_moves := [], player_just_moved := 0,
    parent := none, children := [] }

/-- A one-node concrete arena for witness instantiations. -/
def sampleTree : SearchTree ℤ ℤ ℤ := [sampleRoot]

/-- A concrete root with one visit and two children, for the selection
witnesses. -/
def selRoot : SearchNode ℤ ℤ ℤ :=
  { state := 0, wins := 0, visits := 1, last_move := none,
    untried_moves := [], player_just_moved := 0,
    parent := none, children := [1, 2] }

/-- First concrete child: one win in one visit. -/
def selChild1 : SearchNode ℤ ℤ ℤ :=
  { state := 0, wins := 1, visits := 1, last_move := some 1,
    untried_moves := [], player_just_moved := 1,
    parent := some 0, children := [] }

/-- Second concrete child: no win in one visit. -/
def selChild2 : SearchNode ℤ ℤ ℤ :=
  { state := 0, wins := 0, visits := 1, last_move := some 2,
    untried_moves := [], player_just_moved := 1,
    parent := some 0, children := [] }

/-- A three-node concrete arena for the selection witnesses. -/
def selTree : SearchTree ℤ ℤ ℤ := [selRoot, selChild1, selChild2]

/-- The Nim position of the repository's own test: total 15, player 0 to
move. -/
def nim15 : NimState := { total := 15, player_turn := 0 }

/-! Generic list-indexing lemmas used throughout; proved from first
principles to keep the development self-contained. -/

theorem get?_set_self {α : Type} : ∀ (l : List α) (i : Nat) (a n : α),
    l.get? i = some n → (l.set i a).get? i = some a
  | [], i, _, _, h => by cases h
  | _ :: _, 0, _, _, _ => rfl
  | x :: xs, i + 1, a, n, h => get?_set_self xs i a n h

theorem get?_set_other {α : Type} : ∀ (l : List α) (i j : Nat) (a : α), i ≠ j →
    (l.set i a).get? j = l.get? j
  | [], _, _, _, _ => rfl
  | _ :: _, 0, 0, _, h => absurd rfl h
  | _ :: _, 0, _ + 1, _, _ => rfl
  | _ :: _, _ + 1, 0, _, _ => rfl
  | _ :: xs, i + 1, j + 1, a, h =>
    get?_set_other xs i j a (fun hc => h (congrArg Nat.succ hc))

theorem get?_append_left {α : Type} : ∀ (l l' : List α) (j : Nat), j < l.length →
    (l ++ l').get? j = l.get? j
  | [], _, _, h => absurd h (Nat.not_lt_zero _)
  | _ :: _, _, 0, _ => rfl
  | _ :: xs, l', j + 1, h => get?_append_left xs l' j (Nat.lt_of_succ_lt_succ h)

theorem get?_append_length {α : Type} : ∀ (l : List α) (x : α),
    (l ++ [x]).get? l.length = some x
  | [], _ => rfl
  | _ :: xs, x => get?_append_length xs x

theorem lt_length_of_get? {α : Type} : ∀ {l : List α} {j : Nat} {n : α},
    l.get? j = some n → j < l.length
  | [], _, _, h => by cases h
  | _ :: _, 0, _, _ => Nat.succ_pos _
  | _ :: xs, j + 1, n, h => Nat.succ_lt_succ (lt_length_of_get? (l := xs) h)

theorem exists_get?_of_lt {α : Type} : ∀ {l : List α} {j : Nat}, j < l.length →
    ∃ n, l.get? j = some n
  | [], _, h => absurd h (Nat.not_lt_zero _)
  | x :: _, 0, _ => ⟨x, rfl⟩
  | _ :: xs, j + 1, h => exists_get?_of_lt (l := xs) (Nat.lt_of_succ_lt_succ h)

theorem perm_cons_eraseIdx_of_get? {α : Type} : ∀ (l : List α) (i : Nat) (x : α),
    l.get? i = some x → l.Perm (x :: l.eraseIdx i)
  | [], _, _, h => by cases h
  | y :: ys, 0, x, h => by
    cases h; exact List.Perm.refl _
  | y :: ys, i + 1, x, h => by
    have ih := perm_cons_eraseIdx_of_get? ys i x h
    show (y :: ys).Perm (x :: y :: ys.eraseIdx i)
    exact (ih.cons y).trans (List.Perm.swap x y (ys.eraseIdx i))

/-! Lemmas about the stable-sort and maximum models. -/

theorem compare_swap_eq {β : Type} [LinearOrder β] (a b : β) :
    (compare a b).swap = compare b a := by
  rcases lt_trichotomy a b with h | h | h
  · rw [compare_lt_iff_lt.mpr h, (compare_gt_iff_gt (a := b) (b := a)).mpr h]; rfl
  · subst h
    rw [compare_eq_iff_eq.mpr rfl]; rfl
  · rw [compare_gt_iff_gt.mpr h, (compare_lt_iff_lt (a := b) (b := a)).mpr h]; rfl

theorem perm_sortInsert {α : Type} (cmp : α → α → Ordering) (x : α) :
    ∀ l : List α, (sortInsert cmp x l).Perm (x :: l)
  | [] => List.Perm.refl _
  | y :: ys => by
    by_cases h : cmp x y = Ordering.gt
    · simp only [sortInsert, if_pos h]
      exact ((perm_sortInsert cmp x ys).cons y).trans (List.Perm.swap x y ys)
    · simp only [sortInsert, if_neg h]
      exact List.Perm.refl _

theorem perm_rustSortBy {α : Type} (cmp : α → α → Ordering) :
    ∀ l : List α, (rustSortBy cmp l).Perm l
  | [] => List.Perm.refl _
  | x :: xs =>
    (perm_sortInsert cmp x (rustSortBy cmp xs)).trans ((perm_rustSortBy cmp xs).cons x)

theorem head?_sortInsert {α : Type} (cmp : α → α → Ordering) (x : α) (l : List α) :
    (sortInsert cmp x l).head? =
      match l.head? with
      | none => some x
      | some y => if cmp x y = Ordering.gt then some y else some x := by
  cases l with
  | nil => rfl
  | cons y ys =>
    by_cases h : cmp x y = Ordering.gt <;> simp [sortInsert, h]

theorem head?_rustSortBy {α : Type} (cmp : α → α → Ordering) :
    ∀ l : List α, (rustSortBy cmp l).head? = firstBestByCmp cmp l
  | [] => rfl
  | x :: xs => by
    show (sortInsert cmp x (rustSortBy cmp xs)).head? = _
    rw [head?_sortInsert, head?_rustSortBy cmp xs]
    rfl

theorem firstBestByCmp_eq_none {α : Type} (cmp : α → α → Ordering) :
    ∀ l : List α, firstBestByCmp cmp l = none → l = []
  | [], _ => rfl
  | x :: xs, h => by
    exfalso
    cases hbx : firstBestByCmp cmp xs with
    | none =>
      simp only [firstBestByCmp, hbx] at h
      exact Option.noConfusion h
    | some y =>
      simp only [firstBestByCmp, hbx] at h
      by_cases hc : cmp x y = Ordering.gt
      · rw [if_pos hc] at h; exact Option.noConfusion h
      · rw [if_neg hc] at h; exact Option.noConfusion h

theorem firstBestByCmp_keyDesc_spec {α β : Type} [LinearOrder β] (k : α → β) :
    ∀ (l : List α) (c : α),
      firstBestByCmp (fun a b => compare (k b) (k a)) l = some c →
      c ∈ l ∧ (∀ d ∈ l, k d ≤ k c) ∧
        ∃ pre post, l = pre ++ c :: post ∧ ∀ d ∈ pre, k d < k c
  | [], c, h => by cases h
  | x :: xs, c, h => by
    cases hbx : firstBestByCmp (fun a b => compare (k b) (k a)) xs with
    | none =>
      simp only [firstBestByCmp, hbx] at h
      cases h
      have hxs : xs = [] := firstBestByCmp_eq_none _ xs hbx
      subst hxs
      exact ⟨List.mem_singleton.mpr rfl,
        fun d hd => le_of_eq (congrArg k (List.mem_singleton.mp hd)),
        [], [], rfl, fun d hd => absurd hd (List.not_mem_nil d)⟩
    | some y =>
      simp only [firstBestByCmp, hbx] at h
      by_cases hc : compare (k y) (k x) = Ordering.gt
      · rw [if_pos hc] at h
        cases h
        have hxy : k x < k c := compare_gt_iff_gt.mp hc
        obtain ⟨hmem, hmax, pre, post, hdec, hpre⟩ :=
          firstBestByCmp_keyDesc_spec k xs c hbx
        refine ⟨List.mem_cons_of_mem x hmem, ?_, x :: pre, post, by rw [hdec]; rfl, ?_⟩
        · intro d hd
          rcases List.mem_cons.mp hd with hd | hd
          · exact hd ▸ le_of_lt hxy
          · exact hmax d hd
        · intro d hd
          rcases List.mem_cons.mp hd with hd | hd
          · exact hd ▸ hxy
          · exact hpre d hd
      · rw [if_neg hc] at h
        cases h
        have hyx : k y ≤ k x := not_lt.mp (fun hlt => hc (compare_gt_iff_gt.mpr hlt))
        obtain ⟨hmem, hmax, _, _, _, _⟩ := firstBestByCmp_keyDesc_spec k xs y hbx
        refine ⟨List.mem_cons_self x xs, ?_, [], xs, rfl,
          fun d hd => absurd hd (List.not_mem_nil d)⟩
        intro d hd
        rcases List.mem_cons.mp hd with hd | hd
        · exact le_of_eq (congrArg k hd)
        · exact le_trans (hmax d hd) hyx

theorem pairwise_sortInsert_keyDesc {α β : Type} [LinearOrder β] (k : α → β) (x : α) :
    ∀ l : List α, l.Pairwise (fun a b => k b ≤ k a) →
      (sortInsert (fun a b => compare (k b) (k a)) x l).Pairwise (fun a b => k b ≤ k a)
  | [], _ => List.pairwise_cons.mpr ⟨fun d hd => absurd hd (List.not_mem_nil d), List.Pairwise.nil⟩
  | y :: ys, h => by
    obtain ⟨hy, hys⟩ := List.pairwise_cons.mp h
    by_cases hc : compare (k y) (k x) = Ordering.gt
    · simp only [sortInsert, if_pos hc]
      refine List.pairwise_cons.mpr ⟨?_, pairwise_sortInsert_keyDesc k x ys hys⟩
      intro b hb
      rcases List.mem_cons.mp ((perm_sortInsert _ x ys).mem_iff.mp hb) with hb | hb
      · exact hb ▸ le_of_lt (compare_gt_iff_gt.mp hc)
      · exact hy b hb
    · simp only [sortInsert, if_neg hc]
      have hyx : k y ≤ k x := not_lt.mp (fun hlt => hc (compare_gt_iff_gt.mpr hlt))
      refine List.pairwise_cons.mpr ⟨?_, h⟩
      intro b hb
      rcases List.mem_cons.mp hb with hb | hb
      · exact hb ▸ hyx
      · exact le_trans (hy b hb) hyx

theorem pairwise_rustSortBy_keyDesc {α β : Type} [LinearOrder β] (k : α → β) :
    ∀ l : List α,
      (rustSortBy (fun a b => compare (k b) (k a)) l).Pairwise (fun a b => k b ≤ k a)
  | [] => List.Pairwise.nil
  | x :: xs => pairwise_sortInsert_keyDesc k x _ (pairwise_rustSortBy_keyDesc k xs)

theorem maxByKeyLast_eq_none {α β : Type} [LinearOrder β] (k : α → β) :
    ∀ l : List α, maxByKeyLast k l = none → l = []
  | [], _ => rfl
  | x :: xs, h => by
    exfalso
    cases hbx : maxByKeyLast k xs with
    | none =>
      simp only [maxByKeyLast, hbx] at h
      exact Option.noConfusion h
    | some m =>
      simp only [maxByKeyLast, hbx] at h
      by_cases hc : k m < k x
      · rw [if_pos hc] at h; exact Option.noConfusion h
      · rw [if_neg hc] at h; exact Option.noConfusion h

theorem maxByKeyLast_spec {α β : Type} [LinearOrder β] (k : α → β) :
    ∀ l : List α, l ≠ [] →
      ∃ c, maxByKeyLast k l = some c ∧ c ∈ l ∧ (∀ d ∈ l, k d ≤ k c) ∧
        ∃ pre post, l = pre ++ c :: post ∧ ∀ d ∈ post, k d < k c
  | [], h => absurd rfl h
  | x :: xs, _ => by
    cases hbx : maxByKeyLast k xs with
    | none =>
      have hxs : xs = [] := maxByKeyLast_eq_none k xs hbx
      subst hxs
      exact ⟨x, rfl, List.mem_singleton.mpr rfl,
        fun d hd => le_of_eq (congrArg k (List.mem_singleton.mp hd)),
        [], [], rfl, fun d hd => absurd hd (List.not_mem_nil d)⟩
    | some m =>
      have hxs : xs ≠ [] := by
        intro hnil; rw [hnil] at hbx; exact Option.noConfusion hbx
      obtain ⟨m', hm', hmem, hmax, pre, post, hdec, hpost⟩ := maxByKeyLast_spec k xs hxs
      rw [hbx] at hm'
      cases hm'
      by_cases hc : k m < k x
      · refine ⟨x, ?_, List.mem_cons_self x xs, ?_, [], xs, rfl, ?_⟩
        · simp only [maxByKeyLast, hbx]
          rw [if_pos hc]
        · intro d hd
          rcases List.mem_cons.mp hd with hd | hd
          · exact le_of_eq (congrArg k hd)
          · exact le_of_lt (lt_of_le_of_lt (hmax d hd) hc)
        · intro d hd
          exact lt_of_le_of_lt (hmax d hd) hc
      · refine ⟨m, ?_, List.mem_cons_of_mem x hmem, ?_, x :: pre, post, by rw [hdec]; rfl, hpost⟩
        · simp only [maxByKeyLast, hbx]
          rw [if_neg hc]
        · intro d hd
          rcases List.mem_cons.mp hd with hd | hd
          · exact hd ▸ not_lt.mp hc
          · exact hmax d hd

/-! Skeleton lemmas: selection and backpropagation preserve the arena's
length, the node structure, and every non-statistics field. -/

theorem sameSkeleton_refl {S P M : Type} (t : SearchTree S P M) : SameSkeleton t t := by
  refine ⟨rfl, fun j => ⟨fun n' h => ⟨n', h, rfl, rfl, rfl, rfl, List.Perm.refl _⟩, fun h => h⟩⟩

theorem sameSkeleton_trans {S P M : Type} {t t' t'' : SearchTree S P M}
    (h1 : SameSkeleton t t') (h2 : SameSkeleton t' t'') : SameSkeleton t t'' := by
  obtain ⟨hl1, hp1⟩ := h1
  obtain ⟨hl2, hp2⟩ := h2
  refine ⟨hl2.trans hl1, fun j => ⟨?_, ?_⟩⟩
  · intro n'' h''
    obtain ⟨n', h', e1, e2, e3, e4, e5⟩ := (hp2 j).1 n'' h''
    obtain ⟨n, h, f1, f2, f3, f4, f5⟩ := (hp1 j).1 n' h'
    exact ⟨n, h, e1.trans f1, e2.trans f2, e3.trans f3, e4.trans f4, e5.trans f5⟩
  · intro h''
    exact (hp1 j).2 ((hp2 j).2 h'')

theorem select_shape {S P M : Type} {t t' : SearchTree S P M} {i c : Nat}
    (h : select_most_promising_child t i = some (t', c)) :
    ∃ node sorted, t.get? i = some node ∧ sorted.Perm node.children ∧
      sorted.head? = some c ∧ t' = t.set i { node with children := sorted } := by
  cases hni : t.get? i with
  | none =>
    simp only [select_most_promising_child, hni] at h
    exact Option.noConfusion h
  | some node =>
    simp only [select_most_promising_child, hni] at h
    cases hhd : (rustSortBy
        (fun a b =>
          (compare (expectationAt t (node.visits : ℝ) a)
            (expectationAt t (node.visits : ℝ) b)).swap) node.children).head? with
    | none =>
      rw [hhd] at h
      exact Option.noConfusion h
    | some c0 =>
      rw [hhd] at h
      cases h
      exact ⟨node, _, rfl, perm_rustSortBy _ node.children, hhd, rfl⟩

theorem select_sameSkeleton {S P M : Type} {t t' : SearchTree S P M} {i c : Nat}
    (h : select_most_promising_child t i = some (t', c)) : SameSkeleton t t' := by
  obtain ⟨node, sorted, hni, hperm, _, ht'⟩ := select_shape h
  subst ht'
  refine ⟨List.length_set t i _, fun j => ⟨?_, ?_⟩⟩
  · intro n' hn'
    by_cases hij : i = j
    · subst hij
      rw [get?_set_self t i _ node hni] at hn'
      cases hn'
      exact ⟨node, hni, rfl, rfl, rfl, rfl, hperm⟩
    · rw [get?_set_other t i j _ hij] at hn'
      exact ⟨n', hn', rfl, rfl, rfl, rfl, List.Perm.refl _⟩
  · intro hn'
    by_cases hij : i = j
    · subst hij
      rw [get?_set_self t i _ node hni] at hn'
      exact Option.noConfusion hn'
    · rw [get?_set_other t i j _ hij] at hn'
      exact hn'

theorem select_visits {S P M : Type} {t t' : SearchTree S P M} {i c : Nat}
    (h : select_most_promising_child t i = some (t', c)) :
    ∀ j, nodeVisits t' j = nodeVisits t j := by
  obtain ⟨node, sorted, hni, _, _, ht'⟩ := select_shape h
  subst ht'
  intro j
  by_cases hij : i = j
  · subst hij
    unfold nodeVisits
    rw [get?_set_self t i _ node hni, hni]
  · unfold nodeVisits
    rw [get?_set_other t i j _ hij]

theorem updateAt_sameSkeleton {S P M : Type} [DecidableEq P] (t : SearchTree S P M)
    (i : Nat) (res : List P) : SameSkeleton t (updateAt t i res) := by
  unfold updateAt
  cases hni : t.get? i with
  | none => exact sameSkeleton_refl t
  | some n =>
    refine ⟨List.length_set t i _, fun j => ⟨?_, ?_⟩⟩
    · intro n' hn'
      by_cases hij : i = j
      · subst hij
        rw [get?_set_self t i _ n hni] at hn'
        cases hn'
        exact ⟨n, hni, rfl, rfl, rfl, rfl, List.Perm.refl _⟩
      · rw [get?_set_other t i j _ hij] at hn'
        exact ⟨n', hn', rfl, rfl, rfl, rfl, List.Perm.refl _⟩
    · intro hn'
      by_cases hij : i = j
      · subst hij
        rw [get?_set_self t i _ n hni] at hn'
        exact Option.noConfusion hn'
      · rw [get?_set_other t i j _ hij] at hn'
        exact hn'

theorem foldl_updateAt_sameSkeleton {S P M : Type} [DecidableEq P] (res : List P) :
    ∀ (L : List Nat) (t : SearchTree S P M),
      SameSkeleton t (L.foldl (fun acc j => updateAt acc j res) t)
  | [], t => sameSkeleton_refl t
  | k :: L, t => by
    have h1 := updateAt_sameSkeleton t k res
    have h2 := foldl_updateAt_sameSkeleton res L (updateAt t k res)
    exact sameSkeleton_trans h1 h2

theorem backpropagate_sameSkeleton {S P M : Type} [DecidableEq P] (t : SearchTree S P M)
    (i : Nat) (res : List P) : SameSkeleton t (backpropagate t i res) := by
  unfold backpropagate
  exact sameSkeleton_trans (updateAt_sameSkeleton t i res) (foldl_updateAt_sameSkeleton res _ _)

theorem best_unexplored_sameSkeleton {S P M : Type} :
    ∀ (fuel : Nat) (t : SearchTree S P M) (i : Nat) (t' : SearchTree S P M) (c : Nat),
      best_unexplored_node t fuel i = some (t', c) → SameSkeleton t t'
  | 0, _, _, _, _, h => Option.noConfusion h
  | fuel + 1, t, i, t', c, h => by
    cases hni : t.get? i with
    | none =>
      simp only [best_unexplored_node, hni] at h
      exact Option.noConfusion h
    | some node =>
      simp only [best_unexplored_node, hni] at h
      by_cases hcond : (node.untried_moves.isEmpty && !node.children.isEmpty) = true
      · rw [if_pos hcond] at h
        cases hsel : select_most_promising_child t i with
        | none =>
          rw [hsel] at h
          exact Option.noConfusion h
        | some p =>
          rw [hsel] at h
          obtain ⟨ts, cs⟩ := p
          have hrec : best_unexplored_node ts fuel cs = some (t', c) := h
          exact sameSkeleton_trans (select_sameSkeleton hsel)
            (best_unexplored_sameSkeleton fuel ts cs t' c hrec)
      · rw [if_neg hcond] at h
        cases h
        exact sameSkeleton_refl t

theorem best_unexplored_visits {S P M : Type} :
    ∀ (fuel : Nat) (t : SearchTree S P M) (i : Nat) (t' : SearchTree S P M) (c : Nat),
      best_unexplored_node t fuel i = some (t', c) →
      ∀ j, nodeVisits t' j = nodeVisits t j
  | 0, _, _, _, _, h => Option.noConfusion h
  | fuel + 1, t, i, t', c, h => by
    cases hni : t.get? i with
    | none =>
      simp only [best_unexplored_node, hni] at h
      exact Option.noConfusion h
    | some node =>
      simp only [best_unexplored_node, hni] at h
      by_cases hcond : (node.untried_moves.isEmpty && !node.children.isEmpty) = true
      · rw [if_pos hcond] at h
        cases hsel : select_most_promising_child t i with
        | none =>
          rw [hsel] at h
          exact Option.noConfusion h
        | some p =>
          rw [hsel] at h
          obtain ⟨ts, cs⟩ := p
          have hrec : best_unexplored_node ts fuel cs = some (t', c) := h
          intro j
          exact (best_unexplored_visits fuel ts cs t' c hrec j).trans (select_visits hsel j)
      · rw [if_neg hcond] at h
        cases h
        intro j
        rfl

theorem expand_inv {S P M C : Type} {g : GameSpec S P M C} {t : SearchTree S P M}
    {node_ref k : Nat} {ctx : C} {t2 : SearchTree S P M} {ni : Nat} {ctx2 : C}
    (h : expand_node_by_move g t node_ref k ctx = some (t2, ni, ctx2)) :
    ∃ node picked mover modNode newNode,
      t.get? node_ref = some node ∧
      node.untried_moves.get? k = some picked ∧
      g.active_player node.state = some mover ∧
      ni = t.length ∧
      ctx2 = (g.make_move node.state picked ctx).2 ∧
      modNode = { node with
                  untried_moves := node.untried_moves.eraseIdx k,
                  children := node.children ++ [t.length] } ∧
      newNode = { state := (g.make_move node.state picked ctx).1,
                  wins := 0,
                  visits := 0,
                  last_move := some picked,
                  untried_moves := g.all_moves (g.make_move node.state picked ctx).1,
                  player_just_moved := mover,
                  parent := some node_ref,
                  children := ([] : List Nat) } ∧
      t2 = t.set node_ref modNode ++ [newNode] := by
  cases hni : t.get? node_ref with
  | none =>
    simp only [expand_node_by_move, hni] at h
    exact Option.noConfusion h
  | some node =>
    cases hpk : node.untried_moves.get? k with
    | none =>
      simp only [expand_node_by_move, hni, hpk] at h
      exact Option.noConfusion h
    | some picked =>
      cases hap : g.active_player node.state with
      | none =>
        simp only [expand_node_by_move, hni, hpk, hap] at h
        exact Option.noConfusion h
      | some mover =>
        simp only [expand_node_by_move, hni, hpk, hap] at h
        cases h
        exact ⟨node, picked, mover, _, _, rfl, hpk, hap, rfl, rfl, rfl, rfl, rfl⟩

/-! Ancestor-walk lemmas: on a well-formed arena the upward walk strictly
descends through indices and reaches the root exactly once. -/

theorem ancestorsWalk_none_eq {S P M : Type} (t : SearchTree S P M) :
    ∀ fuel, ancestorsWalk t fuel none = ([] : List Nat)
  | 0 => rfl
  | _ + 1 => rfl

theorem ancestorsWalk_zero {S P M : Type} (t : SearchTree S P M) :
    ∀ po : Option Nat, ancestorsWalk t 0 po = []
  | none => rfl
  | some _ => rfl

theorem ancestorsWalk_succ_some {S P M : Type} {t : SearchTree S P M} {p : Nat}
    {n : SearchNode S P M} (hp : t.get? p = some n) (fuel : Nat) :
    ancestorsWalk t (fuel + 1) (some p) = p :: ancestorsWalk t fuel n.parent := by
  show (match t.get? p with
    | none => []
    | some n => p :: ancestorsWalk t fuel n.parent) = p :: ancestorsWalk t fuel n.parent
  rw [hp]

theorem ancestorsWalk_succ_none {S P M : Type} {t : SearchTree S P M} {p : Nat}
    (hp : t.get? p = none) (fuel : Nat) :
    ancestorsWalk t (fuel + 1) (some p) = [] := by
  show (match t.get? p with
    | none => []
    | some n => p :: ancestorsWalk t fuel n.parent) = []
  rw [hp]

theorem self_mem_walk {S P M : Type} {t : SearchTree S P M} {p : Nat} {n : SearchNode S P M}
    (hp : t.get? p = some n) : ∀ {fuel : Nat}, 0 < fuel → p ∈ ancestorsWalk t fuel (some p)
  | 0, hf => absurd hf (lt_irrefl 0)
  | fuel + 1, _ => by
    rw [ancestorsWalk_succ_some hp fuel]
    exact List.mem_cons_self p _

theorem walk_le {S P M : Type} {t : SearchTree S P M} (hwf : ParentWF t) :
    ∀ (fuel p j : Nat), j ∈ ancestorsWalk t fuel (some p) → j ≤ p
  | 0, _, j, h => absurd h (List.not_mem_nil j)
  | fuel + 1, p, j, h => by
    cases hp : t.get? p with
    | none =>
      rw [ancestorsWalk_succ_none hp fuel] at h
      exact absurd h (List.not_mem_nil j)
    | some n =>
      rw [ancestorsWalk_succ_some hp fuel] at h
      rcases List.mem_cons.mp h with h | h
      · exact le_of_eq h
      · cases hpar : n.parent with
        | none =>
          rw [hpar, ancestorsWalk_none_eq] at h
          exact absurd h (List.not_mem_nil j)
        | some q =>
          rw [hpar] at h
          exact le_trans (walk_le hwf fuel q j h) (le_of_lt ((hwf p n hp).2 q hpar))

theorem walk_pairwise {S P M : Type} {t : SearchTree S P M} (hwf : ParentWF t) :
    ∀ (fuel p : Nat), (ancestorsWalk t fuel (some p)).Pairwise (fun a b => b < a)
  | 0, _ => List.Pairwise.nil
  | fuel + 1, p => by
    cases hp : t.get? p with
    | none =>
      rw [ancestorsWalk_succ_none hp fuel]
      exact List.Pairwise.nil
    | some n =>
      rw [ancestorsWalk_succ_some hp fuel]
      refine List.pairwise_cons.mpr ⟨?_, ?_⟩
      · intro j hj
        cases hpar : n.parent with
        | none =>
          rw [hpar, ancestorsWalk_none_eq] at hj
          exact absurd hj (List.not_mem_nil j)
        | some q =>
          rw [hpar] at hj
          exact lt_of_le_of_lt (walk_le hwf fuel q j hj) ((hwf p n hp).2 q hpar)
      · cases hpar : n.parent with
        | none =>
          rw [ancestorsWalk_none_eq]
          exact List.Pairwise.nil
        | some q => exact walk_pairwise hwf fuel q

theorem walk_valid {S P M : Type} {t : SearchTree S P M} :
    ∀ (fuel : Nat) (po : Option Nat) (j : Nat), j ∈ ancestorsWalk t fuel po →
      ∃ nj, t.get? j = some nj
  | 0, po, j, h => by
    rw [ancestorsWalk_zero t po] at h
    exact absurd h (List.not_mem_nil j)
  | _ + 1, none, j, h => absurd h (List.not_mem_nil j)
  | fuel + 1, some p, j, h => by
    cases hp : t.get? p with
    | none =>
      rw [ancestorsWalk_succ_none hp fuel] at h
      exact absurd h (List.not_mem_nil j)
    | some n =>
      rw [ancestorsWalk_succ_some hp fuel] at h
      rcases List.mem_cons.mp h with h | h
      · exact ⟨n, h ▸ hp⟩
      · exact walk_valid fuel n.parent j h

theorem walk_zero_mem {S P M : Type} {t : SearchTree S P M} (hwf : ParentWF t) :
    ∀ (fuel p : Nat) (n : SearchNode S P M), t.get? p = some n → p < fuel →
      0 ∈ ancestorsWalk t fuel (some p) ∨ p = 0
  | 0, p, _, _, hlt => absurd hlt (Nat.not_lt_zero p)
  | fuel + 1, p, n, hp, hlt => by
    have hw : ancestorsWalk t (fuel + 1) (some p) = p :: ancestorsWalk t fuel n.parent :=
      ancestorsWalk_succ_some hp fuel
    cases hpar : n.parent with
    | none => exact Or.inr ((hwf p n hp).1 hpar)
    | some q =>
      have hq : q < p := (hwf p n hp).2 q hpar
      have hqlen : q < t.length := lt_trans hq (lt_length_of_get? hp)
      obtain ⟨nq, hnq⟩ := exists_get?_of_lt hqlen
      have hqfuel : q < fuel := lt_of_lt_of_le hq (Nat.lt_succ_iff.mp hlt)
      rcases walk_zero_mem hwf fuel q nq hnq hqfuel with h0 | h0
      · rw [hw, hpar]
        exact Or.inl (List.mem_cons_of_mem p h0)
      · subst h0
        rw [hw, hpar]
        exact Or.inl (List.mem_cons_of_mem p (self_mem_walk hnq hqfuel))

theorem ancestors_valid {S P M : Type} {t : SearchTree S P M} {i : Nat} :
    ∀ j ∈ ancestors t i, ∃ nj, t.get? j = some nj := by
  intro j hj
  unfold ancestors at hj
  cases hni : t.get? i with
  | none =>
    rw [hni] at hj
    exact absurd hj (List.not_mem_nil j)
  | some n =>
    rw [hni] at hj
    exact walk_valid t.length n.parent j hj

theorem ancestors_nodup_zero {S P M : Type} {t : SearchTree S P M} {i : Nat}
    {n : SearchNode S P M} (hwf : ParentWF t) (hni : t.get? i = some n) :
    (i :: ancestors t i).Nodup ∧ 0 ∈ i :: ancestors t i ∧ ∀ j ∈ ancestors t i, j < i := by
  have ha : ancestors t i = ancestorsWalk t t.length n.parent := by
    show (match t.get? i with
      | none => []
      | some n => ancestorsWalk t t.length n.parent) = ancestorsWalk t t.length n.parent
    rw [hni]
  cases hpar : n.parent with
  | none =>
    rw [ha, hpar, ancestorsWalk_none_eq]
    refine ⟨List.nodup_singleton i, ?_, fun j hj => absurd hj (List.not_mem_nil j)⟩
    rw [(hwf i n hni).1 hpar]
    exact List.mem_singleton.mpr rfl
  | some q =>
    have hq : q < i := (hwf i n hni).2 q hpar
    have hilen : i < t.length := lt_length_of_get? hni
    have hqlen : q < t.length := lt_trans hq hilen
    obtain ⟨nq, hnq⟩ := exists_get?_of_lt hqlen
    rw [ha, hpar]
    have hle : ∀ j ∈ ancestorsWalk t t.length (some q), j ≤ q :=
      fun j hj => walk_le hwf t.length q j hj
    refine ⟨?_, ?_, ?_⟩
    · refine List.nodup_cons.mpr ⟨?_, ?_⟩
      · intro hmem
        exact absurd (hle i hmem) (not_le.mpr hq)
      · exact List.Pairwise.imp (fun hab => ne_of_gt hab) (walk_pairwise hwf t.length q)
    · rcases walk_zero_mem hwf t.length q nq hnq hqlen with h0 | h0
      · exact List.mem_cons_of_mem i h0
      · subst h0
        exact List.mem_cons_of_mem i
          (self_mem_walk hnq (lt_of_le_of_lt (Nat.zero_le i) hilen))
    · intro j hj
      exact lt_of_le_of_lt (hle j hj) hq

/-! Backpropagation counting lemmas. -/

theorem length_updateAt {S P M : Type} [DecidableEq P] (t : SearchTree S P M) (i : Nat)
    (res : List P) : (updateAt t i res).length = t.length := by
  unfold updateAt
  cases t.get? i with
  | none => rfl
  | some n => exact List.length_set t i _

theorem updateAt_parent_map {S P M : Type} [DecidableEq P] (t : SearchTree S P M) (i : Nat)
    (res : List P) (j : Nat) :
    ((updateAt t i res).get? j).map SearchNode.parent = (t.get? j).map SearchNode.parent := by
  unfold updateAt
  cases hni : t.get? i with
  | none => rfl
  | some n =>
    by_cases hij : i = j
    · subst hij
      rw [get?_set_self t i _ n hni, hni]
      rfl
    · rw [get?_set_other t i j _ hij]

theorem ancestorsWalk_parent_congr {S P M : Type} {t t' : SearchTree S P M}
    (hcong : ∀ j, (t'.get? j).map SearchNode.parent = (t.get? j).map SearchNode.parent) :
    ∀ (fuel : Nat) (po : Option Nat), ancestorsWalk t' fuel po = ancestorsWalk t fuel po
  | 0, po => by rw [ancestorsWalk_zero t po, ancestorsWalk_zero t' po]
  | _ + 1, none => rfl
  | fuel + 1, some p => by
    have h := hcong p
    cases hp : t.get? p with
    | none =>
      have hp' : t'.get? p = none := by
        rw [hp] at h
        exact Option.map_eq_none'.mp h
      rw [ancestorsWalk_succ_none hp fuel, ancestorsWalk_succ_none hp' fuel]
    | some n =>
      rw [hp] at h
      cases hp' : t'.get? p with
      | none =>
        rw [hp'] at h
        exact absurd h (by simp)
      | some n' =>
        rw [hp'] at h
        have hpar : n'.parent = n.parent := by
          simpa using h
        rw [ancestorsWalk_succ_some hp' fuel, ancestorsWalk_succ_some hp fuel,
          hpar, ancestorsWalk_parent_congr hcong fuel n.parent]

theorem ancestors_updateAt {S P M : Type} [DecidableEq P] (t : SearchTree S P M)
    (i : Nat) (res : List P) (j : Nat) :
    ancestors (updateAt t i res) j = ancestors t j := by
  have h := updateAt_parent_map t i res j
  show (match (updateAt t i res).get? j with
    | none => []
    | some n => ancestorsWalk (updateAt t i res) (updateAt t i res).length n.parent) =
    (match t.get? j with
    | none => []
    | some n => ancestorsWalk t t.length n.parent)
  cases hj : t.get? j with
  | none =>
    rw [hj] at h
    rw [Option.map_eq_none'.mp h]
  | some n =>
    rw [hj] at h
    cases hj' : (updateAt t i res).get? j with
    | none =>
      rw [hj'] at h
      exact absurd h (by simp)
    | some n' =>
      rw [hj'] at h
      have hpar : n'.parent = n.parent := by simpa using h
      show ancestorsWalk (updateAt t i res) (updateAt t i res).length n'.parent =
        ancestorsWalk t t.length n.parent
      rw [hpar, length_updateAt t i res]
      exact ancestorsWalk_parent_congr (updateAt_parent_map t i res) t.length n.parent

theorem nodeVisits_updateAt_self {S P M : Type} [DecidableEq P] {t : SearchTree S P M}
    {i : Nat} {n : SearchNode S P M} (hni : t.get? i = some n) (res : List P) :
    nodeVisits (updateAt t i res) i = nodeVisits t i + 1 := by
  have ht : updateAt t i res = t.set i (update_with_result n res) := by
    unfold updateAt
    rw [hni]
  unfold nodeVisits
  rw [ht, get?_set_self t i _ n hni, hni]
  rfl

theorem nodeVisits_updateAt_other {S P M : Type} [DecidableEq P] {t : SearchTree S P M}
    {i j : Nat} (hij : i ≠ j) (res : List P) :
    nodeVisits (updateAt t i res) j = nodeVisits t j := by
  cases hni : t.get? i with
  | none =>
    have ht : updateAt t i res = t := by
      unfold updateAt
      rw [hni]
    rw [ht]
  | some n =>
    have ht : updateAt t i res = t.set i (update_with_result n res) := by
      unfold updateAt
      rw [hni]
    unfold nodeVisits
    rw [ht, get?_set_other t i j _ hij]

theorem get?_updateAt_some {S P M : Type} [DecidableEq P] {t : SearchTree S P M}
    {i x : Nat} {nx : SearchNode S P M} (res : List P) (hx : t.get? x = some nx) :
    ∃ n', (updateAt t i res).get? x = some n' := by
  cases hni : t.get? i with
  | none =>
    have ht : updateAt t i res = t := by
      unfold updateAt
      rw [hni]
    rw [ht]
    exact ⟨nx, hx⟩
  | some n =>
    have ht : updateAt t i res = t.set i (update_with_result n res) := by
      unfold updateAt
      rw [hni]
    rw [ht]
    by_cases hix : i = x
    · subst hix
      exact ⟨_, get?_set_self t i _ n hni⟩
    · rw [get?_set_other t i x _ hix]
      exact ⟨nx, hx⟩

theorem foldl_updateAt_visits {S P M : Type} [DecidableEq P] (res : List P) :
    ∀ (L : List Nat), L.Nodup → ∀ (t : SearchTree S P M) (j : Nat),
      (∀ x ∈ L, ∃ nx, t.get? x = some nx) →
      nodeVisits (L.foldl (fun acc j' => updateAt acc j' res) t) j =
        nodeVisits t j + (if j ∈ L then 1 else 0)
  | [], _, t, j, _ => by simp
  | k :: L, hnd, t, j, hvalid => by
    obtain ⟨hk, hndL⟩ := List.nodup_cons.mp hnd
    have hvalid' : ∀ x ∈ L, ∃ nx, (updateAt t k res).get? x = some nx := by
      intro x hx
      obtain ⟨nx, hnx⟩ := hvalid x (List.mem_cons_of_mem k hx)
      exact get?_updateAt_some res hnx
    have ih := foldl_updateAt_visits res L hndL (updateAt t k res) j hvalid'
    show nodeVisits (L.foldl (fun acc j' => updateAt acc j' res) (updateAt t k res)) j = _
    rw [ih]
    by_cases hjk : j = k
    · subst hjk
      obtain ⟨nj, hnj⟩ := hvalid j (List.mem_cons_self j L)
      rw [nodeVisits_updateAt_self hnj res, if_neg (fun hc => hk hc), if_pos (List.mem_cons_self j L)]
      omega
    · rw [nodeVisits_updateAt_other (fun hc => hjk hc.symm) res]
      by_cases hjL : j ∈ L
      · rw [if_pos hjL, if_pos (List.mem_cons_of_mem k hjL)]
      · rw [if_neg hjL, if_neg (fun hc => hjL (List.mem_cons.mp hc |>.resolve_left hjk))]

theorem backpropagate_visits {S P M : Type} [DecidableEq P] {t : SearchTree S P M}
    {i : Nat} {n : SearchNode S P M} (hwf : ParentWF t) (hni : t.get? i = some n)
    (res : List P) :
    ∀ j, nodeVisits (backpropagate t i res) j =
      nodeVisits t j + (if j ∈ i :: ancestors t i then 1 else 0) := by
  obtain ⟨hnd, _, hlt⟩ := ancestors_nodup_zero hwf hni
  intro j
  show nodeVisits
      ((ancestors (updateAt t i res) i).foldl (fun acc j => updateAt acc j res)
        (updateAt t i res)) j =
    nodeVisits t j + (if j ∈ i :: ancestors t i then 1 else 0)
  rw [ancestors_updateAt t i res i]
  have hndA : (ancestors t i).Nodup := (List.nodup_cons.mp hnd).2
  have hvalid : ∀ x ∈ ancestors t i, ∃ nx, (updateAt t i res).get? x = some nx := by
    intro x hx
    obtain ⟨nx, hnx⟩ := ancestors_valid x hx
    exact get?_updateAt_some res hnx
  rw [foldl_updateAt_visits res (ancestors t i) hndA (updateAt t i res) j hvalid]
  by_cases hji : j = i
  · subst hji
    have hjA : j ∉ ancestors t j := fun hc => absurd (hlt j hc) (lt_irrefl j)
    rw [nodeVisits_updateAt_self hni res, if_neg hjA, if_pos (List.mem_cons_self j _)]
    omega
  · rw [nodeVisits_updateAt_other (fun hc => hji hc.symm) res]
    by_cases hjA : j ∈ ancestors t i
    · rw [if_pos hjA, if_pos (List.mem_cons_of_mem i hjA)]
    · rw [if_neg hjA, if_neg (fun hc => hjA (List.mem_cons.mp hc |>.resolve_left hji))]

/-! Per-phase structural preservation, combined into the main-loop step. -/

theorem sameSkeleton_parentWF {S P M : Type} {t t' : SearchTree S P M}
    (hsk : SameSkeleton t t') (hwf : ParentWF t) : ParentWF t' := by
  intro i n' hn'
  obtain ⟨n, hn, hpar, _, _, _, _⟩ := (hsk.2 i).1 n' hn'
  constructor
  · intro hnone
    exact (hwf i n hn).1 (by rw [← hpar]; exact hnone)
  · intro p hp
    exact (hwf i n hn).2 p (by rw [← hpar]; exact hp)

theorem expand_parentWF {S P M C : Type} {g : GameSpec S P M C} {t : SearchTree S P M}
    {node_ref k : Nat} {ctx : C} {t2 : SearchTree S P M} {ni : Nat} {ctx2 : C}
    (hwf : ParentWF t) (h : expand_node_by_move g t node_ref k ctx = some (t2, ni, ctx2)) :
    ParentWF t2 := by
  obtain ⟨node, picked, mover, modNode, newNode, hni, hpk, hap, hniL, hctx, hmod, hnew, ht2⟩ :=
    expand_inv h
  subst ht2
  intro j n' hn'
  have hjlen : j < t.length + 1 := by
    have hl := lt_length_of_get? hn'
    rw [List.length_append, List.length_set] at hl
    simpa using hl
  by_cases hjt : j < t.length
  · rw [get?_append_left _ _ j (by rw [List.length_set]; exact hjt)] at hn'
    by_cases hjr : node_ref = j
    · subst hjr
      rw [get?_set_self t node_ref _ node hni] at hn'
      cases hn'
      have hparN : modNode.parent = node.parent := by rw [hmod]
      rw [hparN]
      exact hwf node_ref node hni
    · rw [get?_set_other t node_ref j _ hjr] at hn'
      exact hwf j n' hn'
  · have hj : j = t.length := by omega
    subst hj
    have hgetnew : (t.set node_ref modNode ++ [newNode]).get? t.length = some newNode := by
      have hg := get?_append_length (t.set node_ref modNode) newNode
      rwa [List.length_set] at hg
    rw [hgetnew] at hn'
    have he : newNode = n' := by injection hn'
    have hparN : n'.parent = some node_ref := by rw [← he, hnew]
    rw [hparN]
    constructor
    · intro hpn
      exact Option.noConfusion hpn
    · intro p hp
      cases hp
      exact lt_length_of_get? hni

theorem expand_length {S P M C : Type} {g : GameSpec S P M C} {t : SearchTree S P M}
    {node_ref k : Nat} {ctx : C} {t2 : SearchTree S P M} {ni : Nat} {ctx2 : C}
    (h : expand_node_by_move g t node_ref k ctx = some (t2, ni, ctx2)) :
    t2.length = t.length + 1 ∧ ni = t.length := by
  obtain ⟨node, picked, mover, modNode, newNode, hni, hpk, hap, hniL, hctx, hmod, hnew, ht2⟩ :=
    expand_inv h
  subst ht2
  refine ⟨?_, hniL⟩
  rw [List.length_append, List.length_set]
  rfl

theorem expand_visits {S P M C : Type} {g : GameSpec S P M C} {t : SearchTree S P M}
    {node_ref k : Nat} {ctx : C} {t2 : SearchTree S P M} {ni : Nat} {ctx2 : C}
    (h : expand_node_by_move g t node_ref k ctx = some (t2, ni, ctx2)) :
    ∀ j, j < t.length → nodeVisits t2 j = nodeVisits t j := by
  obtain ⟨node, picked, mover, modNode, newNode, hni, hpk, hap, hniL, hctx, hmod, hnew, ht2⟩ :=
    expand_inv h
  subst ht2
  intro j hj
  unfold nodeVisits
  rw [get?_append_left _ _ j (by rw [List.length_set]; exact hj)]
  by_cases hjr : node_ref = j
  · subst hjr
    rw [get?_set_self t node_ref _ node hni, hni, hmod]
  · rw [get?_set_other t node_ref j _ hjr]

theorem rolloutAndBackprop_inv {S P M C : Type} {g : GameSpec S P M C} [DecidableEq P]
    {fuel : Nat} {t : SearchTree S P M} {i : Nat} {rng : Rng} {ctx : C}
    {t' : SearchTree S P M} {rng' : Rng} {ctx' : C}
    (h : rolloutAndBackprop g fuel t i rng ctx = some (t', rng', ctx')) :
    ∃ n result, t.get? i = some n ∧ t' = backpropagate t i result := by
  cases hni : t.get? i with
  | none =>
    simp only [rolloutAndBackprop, hni] at h
    exact Option.noConfusion h
  | some n =>
    simp only [rolloutAndBackprop, hni] at h
    cases hsim : simulate_until_terminal g fuel n.state rng ctx with
    | none =>
      rw [hsim] at h
      exact Option.noConfusion h
    | some s3 =>
      obtain ⟨endState, rng3, ctx3⟩ := s3
      simp only [hsim] at h
      cases hres : g.game_result endState with
      | none =>
        rw [hres] at h
        exact Option.noConfusion h
      | some result =>
        simp only [hres] at h
        cases h
        exact ⟨n, result, rfl, rfl⟩

theorem searchStep_structure {S P M C : Type} {g : GameSpec S P M C} [DecidableEq P]
    {fuel : Nat} {t : SearchTree S P M} {rng : Rng} {ctx : C}
    {t' : SearchTree S P M} {rng' : Rng} {ctx' : C}
    (h : searchStep g fuel t rng ctx = some (t', rng', ctx')) :
    ∃ t1 i1 t2 i2, best_unexplored_node t (t.length + 1) 0 = some (t1, i1) ∧
      ((t2 = t1 ∧ i2 = i1) ∨
        ∃ k c1, expand_node_by_move g t1 i1 k ctx = some (t2, i2, c1)) ∧
      ∃ n2 result, t2.get? i2 = some n2 ∧ t' = backpropagate t2 i2 result := by
  cases hbu : best_unexplored_node t (t.length + 1) 0 with
  | none =>
    simp only [searchStep, hbu] at h
    exact Option.noConfusion h
  | some p =>
    obtain ⟨t1, i1⟩ := p
    simp only [searchStep, hbu] at h
    cases hsel : t1.get? i1 with
    | none =>
      rw [hsel] at h
      exact Option.noConfusion h
    | some selNode =>
      simp only [hsel] at h
      by_cases hemp : selNode.untried_moves.isEmpty = true
      · rw [if_pos hemp] at h
        obtain ⟨n2, result, hget, hbp⟩ := rolloutAndBackprop_inv h
        exact ⟨t1, i1, t1, i1, rfl, Or.inl ⟨rfl, rfl⟩, n2, result, hget, hbp⟩
      · rw [if_neg hemp] at h
        cases hexp : expand_node_by_move g t1 i1
            (genRange rng 0 selNode.untried_moves.length).1 ctx with
        | none =>
          rw [hexp] at h
          exact Option.noConfusion h
        | some q =>
          obtain ⟨t2, i2, c1⟩ := q
          simp only [hexp] at h
          obtain ⟨n2, result, hget, hbp⟩ := rolloutAndBackprop_inv h
          exact ⟨t1, i1, t2, i2, rfl, Or.inr ⟨_, c1, hexp⟩, n2, result, hget, hbp⟩

theorem searchStep_parentWF {S P M C : Type} {g : GameSpec S P M C} [DecidableEq P]
    {fuel : Nat} {t : SearchTree S P M} {rng : Rng} {ctx : C}
    {t' : SearchTree S P M} {rng' : Rng} {ctx' : C}
    (hwf : ParentWF t) (h : searchStep g fuel t rng ctx = some (t', rng', ctx')) :
    ParentWF t' := by
  obtain ⟨t1, i1, t2, i2, hbu, hmid, n2, result, hget, hbp⟩ := searchStep_structure h
  have hwf1 : ParentWF t1 :=
    sameSkeleton_parentWF (best_unexplored_sameSkeleton _ t 0 t1 i1 hbu) hwf
  have hwf2 : ParentWF t2 := by
    rcases hmid with ⟨ht2, _⟩ | ⟨k, c1, hexp⟩
    · exact ht2 ▸ hwf1
    · exact expand_parentWF hwf1 hexp
  subst hbp
  exact sameSkeleton_parentWF (backpropagate_sameSkeleton t2 i2 result) hwf2

theorem searchStep_length_le {S P M C : Type} {g : GameSpec S P M C} [DecidableEq P]
    {fuel : Nat} {t : SearchTree S P M} {rng : Rng} {ctx : C}
    {t' : SearchTree S P M} {rng' : Rng} {ctx' : C}
    (h : searchStep g fuel t rng ctx = some (t', rng', ctx')) :
    t'.length ≤ t.length + 1 := by
  obtain ⟨t1, i1, t2, i2, hbu, hmid, n2, result, hget, hbp⟩ := searchStep_structure h
  have hl1 : t1.length = t.length := (best_unexplored_sameSkeleton _ t 0 t1 i1 hbu).1
  have hl2 : t2.length ≤ t1.length + 1 := by
    rcases hmid with ⟨ht2, _⟩ | ⟨k, c1, hexp⟩
    · rw [ht2]
      omega
    · rw [(expand_length hexp).1]
  have hl3 : t'.length = t2.length := by
    rw [hbp]
    exact (backpropagate_sameSkeleton t2 i2 result).1
  omega

theorem searchStep_root_visits {S P M C : Type} {g : GameSpec S P M C} [DecidableEq P]
    {fuel : Nat} {t : SearchTree S P M} {rng : Rng} {ctx : C}
    {t' : SearchTree S P M} {rng' : Rng} {ctx' : C}
    (hwf : ParentWF t) (h : searchStep g fuel t rng ctx = some (t', rng', ctx')) :
    nodeVisits t' 0 = nodeVisits t 0 + 1 := by
  obtain ⟨t1, i1, t2, i2, hbu, hmid, n2, result, hget, hbp⟩ := searchStep_structure h
  have hwf1 : ParentWF t1 :=
    sameSkeleton_parentWF (best_unexplored_sameSkeleton _ t 0 t1 i1 hbu) hwf
  have hv1 : nodeVisits t1 0 = nodeVisits t 0 :=
    best_unexplored_visits _ t 0 t1 i1 hbu 0
  have hwf2 : ParentWF t2 := by
    rcases hmid with ⟨ht2, _⟩ | ⟨k, c1, hexp⟩
    · exact ht2 ▸ hwf1
    · exact expand_parentWF hwf1 hexp
  have hv2 : nodeVisits t2 0 = nodeVisits t1 0 := by
    rcases hmid with ⟨ht2, _⟩ | ⟨k, c1, hexp⟩
    · rw [ht2]
    · refine expand_visits hexp 0 ?_
      obtain ⟨node, _, _, _, _, hn1, _⟩ := expand_inv hexp
      exact lt_of_le_of_lt (Nat.zero_le i1) (lt_length_of_get? hn1)
  have hzero : (0 : Nat) ∈ i2 :: ancestors t2 i2 :=
    (ancestors_nodup_zero hwf2 hget).2.1
  have hv3 : nodeVisits t' 0 = nodeVisits t2 0 + 1 := by
    rw [hbp, backpropagate_visits hwf2 hget result 0, if_pos hzero]
  omega

/-! Iteration-level lemmas. -/

theorem iterateSteps_parentWF {S P M C : Type} {g : GameSpec S P M C} [DecidableEq P]
    {fuel : Nat} :
    ∀ (n : Nat) (st st' : SearchTree S P M × Rng × C),
      iterateSteps g fuel n st = some st' → ParentWF st.1 → ParentWF st'.1
  | 0, st, st', h, hwf => by
    cases h
    exact hwf
  | n + 1, (t, rng, ctx), st', h, hwf => by
    cases hstep : searchStep g fuel t rng ctx with
    | none =>
      simp only [iterateSteps, hstep] at h
      exact Option.noConfusion h
    | some st1 =>
      simp only [iterateSteps, hstep] at h
      obtain ⟨t1, rng1, ctx1⟩ := st1
      exact iterateSteps_parentWF n (t1, rng1, ctx1) st' h (searchStep_parentWF hwf hstep)

theorem iterateSteps_length_le {S P M C : Type} {g : GameSpec S P M C} [DecidableEq P]
    {fuel : Nat} :
    ∀ (n : Nat) (st st' : SearchTree S P M × Rng × C),
      iterateSteps g fuel n st = some st' → st'.1.length ≤ st.1.length + n
  | 0, st, st', h => by
    cases h
    exact Nat.le_refl _
  | n + 1, (t, rng, ctx), st', h => by
    cases hstep : searchStep g fuel t rng ctx with
    | none =>
      simp only [iterateSteps, hstep] at h
      exact Option.noConfusion h
    | some st1 =>
      simp only [iterateSteps, hstep] at h
      obtain ⟨t1, rng1, ctx1⟩ := st1
      have h1 := searchStep_length_le hstep
      have h2 := iterateSteps_length_le n (t1, rng1, ctx1) st' h
      simp only at h1 h2 ⊢
      omega

theorem iterateSteps_root_visits {S P M C : Type} {g : GameSpec S P M C} [DecidableEq P]
    {fuel : Nat} :
    ∀ (n : Nat) (st st' : SearchTree S P M × Rng × C),
      iterateSteps g fuel n st = some st' → ParentWF st.1 →
      nodeVisits st'.1 0 = nodeVisits st.1 0 + n
  | 0, st, st', h, _ => by
    cases h
    simp
  | n + 1, (t, rng, ctx), st', h, hwf => by
    cases hstep : searchStep g fuel t rng ctx with
    | none =>
      simp only [iterateSteps, hstep] at h
      exact Option.noConfusion h
    | some st1 =>
      simp only [iterateSteps, hstep] at h
      obtain ⟨t1, rng1, ctx1⟩ := st1
      have h1 := searchStep_root_visits hwf hstep
      have h2 := iterateSteps_root_visits n (t1, rng1, ctx1) st' h (searchStep_parentWF hwf hstep)
      simp only at h1 h2 ⊢
      omega

/-! Preservation of the untried/children move-partition invariant. -/

theorem filterMap_congr' {α β : Type} {f g : α → Option β} :
    ∀ {l : List α}, (∀ a ∈ l, f a = g a) → l.filterMap f = l.filterMap g
  | [], _ => rfl
  | x :: xs, h => by
    simp only [List.filterMap_cons, h x (List.mem_cons_self x xs),
      filterMap_congr' (fun a ha => h a (List.mem_cons_of_mem x ha))]

theorem childLastMoves_congr {S P M : Type} {t t' : SearchTree S P M}
    {n n' : SearchNode S P M} (hch : n'.children.Perm n.children)
    (hfun : ∀ c ∈ n'.children,
      (t'.get? c).bind (fun cn => cn.last_move) = (t.get? c).bind (fun cn => cn.last_move)) :
    (childLastMoves t' n').Perm (childLastMoves t n) := by
  unfold childLastMoves
  rw [filterMap_congr' hfun]
  exact hch.filterMap _

theorem sameSkeleton_lastMove_at {S P M : Type} {t t' : SearchTree S P M}
    (hsk : SameSkeleton t t') (c : Nat) :
    (t'.get? c).bind (fun cn => cn.last_move) = (t.get? c).bind (fun cn => cn.last_move) := by
  cases hc' : t'.get? c with
  | none =>
    rw [(hsk.2 c).2 hc']
  | some n' =>
    obtain ⟨n, hn, _, _, _, hlm, _⟩ := (hsk.2 c).1 n' hc'
    rw [hn]
    show n'.last_move = n.last_move
    exact hlm

theorem sameSkeleton_childrenWF {S P M : Type} {t t' : SearchTree S P M}
    (hsk : SameSkeleton t t') (hcw : ChildrenWF t) : ChildrenWF t' := by
  intro j n' hn' c hc
  obtain ⟨n, hn, _, _, _, _, hch⟩ := (hsk.2 j).1 n' hn'
  rw [hsk.1]
  exact hcw j n hn c (hch.mem_iff.mp hc)

theorem sameSkeleton_movesInv {S P M C : Type} {g : GameSpec S P M C}
    {t t' : SearchTree S P M} (hsk : SameSkeleton t t') (hmv : MovesInv g t) :
    MovesInv g t' := by
  intro j n' hn'
  obtain ⟨n, hn, _, hst, hun, _, hch⟩ := (hsk.2 j).1 n' hn'
  have hcm : (childLastMoves t' n').Perm (childLastMoves t n) :=
    childLastMoves_congr hch (fun c _ => sameSkeleton_lastMove_at hsk c)
  rw [hun, hst]
  exact (List.Perm.append_left n.untried_moves hcm).trans (hmv j n hn)

theorem expand_childrenWF {S P M C : Type} {g : GameSpec S P M C} {t : SearchTree S P M}
    {node_ref k : Nat} {ctx : C} {t2 : SearchTree S P M} {ni : Nat} {ctx2 : C}
    (hcw : ChildrenWF t) (h : expand_node_by_move g t node_ref k ctx = some (t2, ni, ctx2)) :
    ChildrenWF t2 := by
  obtain ⟨node, picked, mover, modNode, newNode, hni, hpk, hap, hniL, hctx, hmod, hnew, ht2⟩ :=
    expand_inv h
  subst ht2
  intro j n' hn' c hc
  have hlen2 : (t.set node_ref modNode ++ [newNode]).length = t.length + 1 := by
    rw [List.length_append, List.length_set]
    rfl
  rw [hlen2]
  have hjlen : j < t.length + 1 := by
    have hl := lt_length_of_get? hn'
    rw [List.length_append, List.length_set] at hl
    simpa using hl
  by_cases hjt : j < t.length
  · rw [get?_append_left _ _ j (by rw [List.length_set]; exact hjt)] at hn'
    by_cases hjr : node_ref = j
    · subst hjr
      rw [get?_set_self t node_ref _ node hni] at hn'
      obtain rfl : modNode = n' := by injection hn'
      rw [show modNode.children = node.children ++ [t.length] by rw [hmod]] at hc
      rcases List.mem_append.mp hc with hc | hc
      · exact lt_trans (hcw node_ref node hni c hc) (Nat.lt_succ_self _)
      · rw [List.mem_singleton.mp hc]
        exact Nat.lt_succ_self _
    · rw [get?_set_other t node_ref j _ hjr] at hn'
      exact lt_trans (hcw j n' hn' c hc) (Nat.lt_succ_self _)
  · have hj : j = t.length := by omega
    subst hj
    have hg := get?_append_length (t.set node_ref modNode) newNode
    rw [List.length_set] at hg
    rw [hg] at hn'
    obtain rfl : newNode = n' := by injection hn'
    rw [show newNode.children = ([] : List Nat) by rw [hnew]] at hc
    exact absurd hc (List.not_mem_nil c)

theorem expand_movesInv {S P M C : Type} {g : GameSpec S P M C} {t : SearchTree S P M}
    {node_ref k : Nat} {ctx : C} {t2 : SearchTree S P M} {ni : Nat} {ctx2 : C}
    (hcw : ChildrenWF t) (hmv : MovesInv g t)
    (h : expand_node_by_move g t node_ref k ctx = some (t2, ni, ctx2)) :
    MovesInv g t2 := by
  obtain ⟨node, picked, mover, modNode, newNode, hni, hpk, hap, hniL, hctx, hmod, hnew, ht2⟩ :=
    expand_inv h
  subst ht2
  have hF : ∀ c, c < t.length →
      ((t.set node_ref modNode ++ [newNode]).get? c).bind (fun cn => cn.last_move) =
        (t.get? c).bind (fun cn => cn.last_move) := by
    intro c hc
    rw [get?_append_left _ _ c (by rw [List.length_set]; exact hc)]
    by_cases hcr : node_ref = c
    · subst hcr
      rw [get?_set_self t node_ref _ node hni, hni]
      show modNode.last_move = node.last_move
      rw [hmod]
    · rw [get?_set_other t node_ref c _ hcr]
  have hFnew : ((t.set node_ref modNode ++ [newNode]).get? t.length).bind
      (fun cn => cn.last_move) = some picked := by
    have hg := get?_append_length (t.set node_ref modNode) newNode
    rw [List.length_set] at hg
    rw [hg]
    show newNode.last_move = some picked
    rw [hnew]
  intro j n' hn'
  have hjlen : j < t.length + 1 := by
    have hl := lt_length_of_get? hn'
    rw [List.length_append, List.length_set] at hl
    simpa using hl
  by_cases hjt : j < t.length
  · rw [get?_append_left _ _ j (by rw [List.length_set]; exact hjt)] at hn'
    by_cases hjr : node_ref = j
    · subst hjr
      rw [get?_set_self t node_ref _ node hni] at hn'
      obtain rfl : modNode = n' := by injection hn'
      have hcm : childLastMoves (t.set node_ref modNode ++ [newNode]) modNode
          = childLastMoves t node ++ [picked] := by
        unfold childLastMoves
        rw [show modNode.children = node.children ++ [t.length] by rw [hmod]]
        rw [List.filterMap_append]
        congr 1
        · exact filterMap_congr' (fun c hc => hF c (hcw node_ref node hni c hc))
        · simp only [List.filterMap_cons, List.filterMap_nil, hFnew]
      rw [hcm,
        show modNode.untried_moves = node.untried_moves.eraseIdx k by rw [hmod],
        show modNode.state = node.state by rw [hmod]]
      have hbase := hmv node_ref node hni
      have hperm1 : node.untried_moves.Perm (picked :: node.untried_moves.eraseIdx k) :=
        perm_cons_eraseIdx_of_get? _ k picked hpk
      have h1 : (node.untried_moves.eraseIdx k ++ (childLastMoves t node ++ [picked])).Perm
          (picked :: (node.untried_moves.eraseIdx k ++ childLastMoves t node)) := by
        rw [← List.append_assoc]
        exact List.perm_append_singleton picked _
      have h2 : (picked :: (node.untried_moves.eraseIdx k ++ childLastMoves t node)).Perm
          (node.untried_moves ++ childLastMoves t node) :=
        (hperm1.append_right (childLastMoves t node)).symm
      exact (h1.trans h2).trans hbase
    · rw [get?_set_other t node_ref j _ hjr] at hn'
      have hcm : childLastMoves (t.set node_ref modNode ++ [newNode]) n'
          = childLastMoves t n' := by
        unfold childLastMoves
        exact filterMap_congr' (fun c hc => hF c (hcw j n' hn' c hc))
      rw [hcm]
      exact hmv j n' hn'
  · have hj : j = t.length := by omega
    subst hj
    have hg := get?_append_length (t.set node_ref modNode) newNode
    rw [List.length_set] at hg
    rw [hg] at hn'
    obtain rfl : newNode = n' := by injection hn'
    have hcm : childLastMoves (t.set node_ref modNode ++ [newNode]) newNode = [] := by
      unfold childLastMoves
      rw [show newNode.children = ([] : List Nat) by rw [hnew]]
      rfl
    rw [hcm, List.append_nil,
      show newNode.untried_moves = g.all_moves (g.make_move node.state picked ctx).1 by
        rw [hnew],
      show newNode.state = (g.make_move node.state picked ctx).1 by rw [hnew]]

theorem searchStep_movesInv {S P M C : Type} {g : GameSpec S P M C} [DecidableEq P]
    {fuel : Nat} {t : SearchTree S P M} {rng : Rng} {ctx : C}
    {t' : SearchTree S P M} {rng' : Rng} {ctx' : C}
    (hcw : ChildrenWF t) (hmv : MovesInv g t)
    (h : searchStep g fuel t rng ctx = some (t', rng', ctx')) :
    ChildrenWF t' ∧ MovesInv g t' := by
  obtain ⟨t1, i1, t2, i2, hbu, hmid, n2, result, hget, hbp⟩ := searchStep_structure h
  have hsk1 := best_unexplored_sameSkeleton _ t 0 t1 i1 hbu
  have hcw1 : ChildrenWF t1 := sameSkeleton_childrenWF hsk1 hcw
  have hmv1 : MovesInv g t1 := sameSkeleton_movesInv hsk1 hmv
  have hcw2 : ChildrenWF t2 := by
    rcases hmid with ⟨ht2, _⟩ | ⟨k, c1, hexp⟩
    · exact ht2 ▸ hcw1
    · exact expand_childrenWF hcw1 hexp
  have hmv2 : MovesInv g t2 := by
    rcases hmid with ⟨ht2, _⟩ | ⟨k, c1, hexp⟩
    · exact ht2 ▸ hmv1
    · exact expand_movesInv hcw1 hmv1 hexp
  subst hbp
  have hsk3 := backpropagate_sameSkeleton t2 i2 result
  exact ⟨sameSkeleton_childrenWF hsk3 hcw2, sameSkeleton_movesInv hsk3 hmv2⟩

theorem iterateSteps_movesInv {S P M C : Type} {g : GameSpec S P M C} [DecidableEq P]
    {fuel : Nat} :
    ∀ (n : Nat) (st st' : SearchTree S P M × Rng × C),
      iterateSteps g fuel n st = some st' → ChildrenWF st.1 → MovesInv g st.1 →
      ChildrenWF st'.1 ∧ MovesInv g st'.1
  | 0, st, st', h, hcw, hmv => by
    cases h
    exact ⟨hcw, hmv⟩
  | n + 1, (t, rng, ctx), st', h, hcw, hmv => by
    cases hstep : searchStep g fuel t rng ctx with
    | none =>
      simp only [iterateSteps, hstep] at h
      exact Option.noConfusion h
    | some st1 =>
      simp only [iterateSteps, hstep] at h
      obtain ⟨t1, rng1, ctx1⟩ := st1
      obtain ⟨hcw1, hmv1⟩ := searchStep_movesInv hcw hmv hstep
      exact iterateSteps_movesInv n (t1, rng1, ctx1) st' h hcw1 hmv1

/-! Initial-state facts. -/

theorem initState_parentWF {S P M C : Type} (g : GameSpec S P M C) (s : S) (jm : P)
    (ctx : C) (e : Rng) : ParentWF (initState g s jm ctx e).1 := by
  intro i n hn
  cases i with
  | zero =>
    cases hn
    exact ⟨fun _ => rfl, fun p hp => Option.noConfusion hp⟩
  | succ i => exact Option.noConfusion hn

theorem initState_childrenWF {S P M C : Type} (g : GameSpec S P M C) (s : S) (jm : P)
    (ctx : C) (e : Rng) : ChildrenWF (initState g s jm ctx e).1 := by
  intro i n hn c hc
  cases i with
  | zero =>
    cases hn
    exact absurd hc (List.not_mem_nil c)
  | succ i => exact Option.noConfusion hn

theorem initState_movesInv {S P M C : Type} (g : GameSpec S P M C) (s : S) (jm : P)
    (ctx : C) (e : Rng) : MovesInv g (initState g s jm ctx e).1 := by
  intro i n hn
  cases i with
  | zero =>
    cases hn
    show (g.all_moves s ++ childLastMoves _ _).Perm (g.all_moves s)
    rw [show childLastMoves (initState g s jm ctx e).1
        { state := s, wins := 0, visits := 0, last_move := none,
          untried_moves := g.all_moves s, player_just_moved := jm,
          parent := none, children := [] } = [] from rfl]
    rw [List.append_nil]
  | succ i => exact Option.noConfusion hn

theorem initState_root_visits {S P M C : Type} (g : GameSpec S P M C) (s : S) (jm : P)
    (ctx : C) (e : Rng) : nodeVisits (initState g s jm ctx e).1 0 = 0 := rfl

/-! The claims. -/

/-- C4: `update_with_result` applied to any node and any non-empty terminal
winner set increments `visits` by exactly 1 and increments `wins` by
`1 / |winners|` when `player_just_moved` is among the winners, by 0
otherwise.  (The witness below exercises the two-winner case, crediting
exactly 0.5.) -/
theorem update_with_result_spec {S P M : Type} [DecidableEq P]
    (n : SearchNode S P M) (result : List P) (hres : result ≠ []) :
    (update_with_result n result).visits = n.visits + 1 ∧
    (update_with_result n result).wins =
      n.wins + (if n.player_just_moved ∈ result then 1 / (result.length : ℚ) else 0) := by
  constructor
  · rfl
  · show (if n.player_just_moved ∈ result then n.wins + 1 / (result.length : ℚ) else n.wins) = _
    by_cases hmem : n.player_just_moved ∈ result
    · rw [if_pos hmem, if_pos hmem]
    · rw [if_neg hmem, if_neg hmem, add_zero]

/-- Witness for C4 at a concrete node and the two-winner outcome `[0, 1]`:
the visit count gains 1 and the win total gains exactly `1/2`. -/
theorem update_with_result_spec_witness :
    (([0, 1] : List ℤ) ≠ []) ∧
    ((update_with_result sampleRoot [0, 1]).visits = sampleRoot.visits + 1 ∧
     (update_with_result sampleRoot [0, 1]).wins =
       sampleRoot.wins +
         (if sampleRoot.player_just_moved ∈ [0, 1] then 1 / (([0, 1] : List ℤ).length : ℚ)
          else 0)) ∧
    (update_with_result sampleRoot [0, 1]).wins = 1 / 2 := by
  refine ⟨by decide, update_with_result_spec sampleRoot [0, 1] (by decide), ?_⟩
  norm_num [update_with_result, sampleRoot]

/-- C10: `most_visited_child` is a pure function of the node and arena (so
repeated calls on an unmodified node trivially return the same child), and
the returned child is a child holding the maximal visit count; when several
children tie at the maximum, the returned one is the last such child in the
children list (every child after it is strictly smaller), matching
`Iterator::max_by_key`. -/
theorem most_visited_child_spec {S P M : Type} (t : SearchTree S P M)
    (n : SearchNode S P M) (hne : n.children ≠ []) :
    ∃ ci, most_visited_child t n = some ci ∧ ci ∈ n.children ∧
      (∀ d ∈ n.children, nodeVisits t d ≤ nodeVisits t ci) ∧
      ∃ pre post, n.children = pre ++ ci :: post ∧
        ∀ d ∈ post, nodeVisits t d < nodeVisits t ci := by
  obtain ⟨c, hc, hmem, hmax, pre, post, hdec, hpost⟩ :=
    maxByKeyLast_spec (fun c => nodeVisits t c) n.children hne
  exact ⟨c, hc, hmem, hmax, pre, post, hdec, hpost⟩

/-- Witness for C10 on a concrete arena whose two children tie at one visit:
the characterization holds (and in fact the returned child is the later
one). -/
theorem most_visited_child_spec_witness :
    (selRoot.children ≠ []) ∧
    (∃ ci, most_visited_child selTree selRoot = some ci ∧ ci ∈ selRoot.children ∧
      (∀ d ∈ selRoot.children, nodeVisits selTree d ≤ nodeVisits selTree ci) ∧
      ∃ pre post, selRoot.children = pre ++ ci :: post ∧
        ∀ d ∈ post, nodeVisits selTree d < nodeVisits selTree ci) ∧
    most_visited_child selTree selRoot = some 2 := by
  refine ⟨by decide, most_visited_child_spec selTree selRoot (by decide), by decide⟩

/-- C8: the diagnostics dump of `src/tree_search_logging.rs` renders, for a
node, exactly the statistics snapshots (move, win count, visit count, win
percentage) of its children — the rendered list is a permutation of the
collected per-child stats — sorted by descending win percentage.  The dump
is a pure function of the arena and the node (it sorts a fresh copy of the
snapshots), so it mutates no node's statistics or structure by
construction.  `NodeStats`/`stats` are modelled from the spec since their
definitions are not under `src`. -/
theorem print_child_move_stats_spec {S P M : Type} (t : SearchTree S P M)
    (n : SearchNode S P M) :
    (print_child_move_stats t n).Perm (collect_child_stats t n) ∧
    (print_child_move_stats t n).Pairwise (fun a b => b.percent_won ≤ a.percent_won) := by
  constructor
  · exact perm_rustSortBy _ _
  · exact pairwise_rustSortBy_keyDesc (fun st : NodeStats M => st.percent_won)
      (collect_child_stats t n)

/-- C9 (amended): `find_best_move` with `max_iterations = 0` never returns a
move: the loop body never runs, the root keeps zero children, and
`most_visited_child` hits its childless-node panic (modelled as `none`) —
for any game, state, context, entropy, fuel and debug flag. -/
theorem find_best_move_zero_iters {S P M C : Type} (g : GameSpec S P M C) [DecidableEq P]
    (s : S) (ctx : C) (e : Rng) (fuel : Nat) (d : Bool) :
    find_best_move g s 0 ctx e fuel d = none := by
  unfold find_best_move
  cases hpl : (g.all_players s).getLast? with
  | none => rfl
  | some jm => rfl

/-- Counterexample for C9 as stated: at the repository's own Nim test
position, a zero-iteration search does not return any legal move — it
returns no move at all. -/
theorem find_best_move_zero_iters_counterexample :
    ¬ ∃ m, find_best_move nimGame nim15 0 () entropy0 20 false = some m ∧
      m ∈ nimGame.all_moves nim15 := by
  rintro ⟨m, hm, -⟩
  rw [show find_best_move nimGame nim15 0 () entropy0 20 false = none from rfl] at hm
  exact Option.noConfusion hm

/-- C1 (amended): the search is a deterministic function of the root state,
iteration count, context, rollout fuel, and the *internal* RNG entropy that
`find_best_move` draws via `randomly_seeded_weak_rng` — and is independent
of the debug flag.  Fixing the caller-visible arguments alone does not fix
the result, because the internal entropy is fresh per call (see the
counterexample). -/
theorem find_best_move_deterministic {S P M C : Type} (g : GameSpec S P M C) [DecidableEq P]
    (s1 s2 : S) (N1 N2 : Nat) (ctx1 ctx2 : C) (e1 e2 : Rng) (fuel1 fuel2 : Nat)
    (d1 d2 : Bool) (hs : s1 = s2) (hN : N1 = N2) (hctx : ctx1 = ctx2) (he : e1 = e2)
    (hfuel : fuel1 = fuel2) :
    find_best_move g s1 N1 ctx1 e1 fuel1 d1 = find_best_move g s2 N2 ctx2 e2 fuel2 d2 := by
  subst hs
  subst hN
  subst hctx
  subst he
  subst hfuel
  rfl

/-- Witness for C1 (amended): two calls identical in everything but the
debug flag coincide. -/
theorem find_best_move_deterministic_witness :
    find_best_move nimGame nim15 1 () entropy0 20 true =
      find_best_move nimGame nim15 1 () entropy0 20 false :=
  find_best_move_deterministic nimGame nim15 nim15 1 1 () () entropy0 entropy0 20 20
    true false rfl rfl rfl rfl rfl

/-- Counterexample for C1 as stated: two calls with the identical root
state, identical `max_iterations`, and identical caller-supplied context
(`()`, trivially "identically seeded") return different moves, because the
move-to-expand and rollout draws come from the internal freshly seeded
generator, not from the context. -/
theorem find_best_move_entropy_dependent :
    find_best_move nimGame nim15 1 () entropy0 20 false = some 1 ∧
    find_best_move nimGame nim15 1 () entropy1 20 false = some 2 ∧
    find_best_move nimGame nim15 1 () entropy0 20 false ≠
      find_best_move nimGame nim15 1 () entropy1 20 false := by
  refine ⟨rfl, rfl, ?_⟩
  intro h
  rw [show find_best_move nimGame nim15 1 () entropy0 20 false = some 1 from rfl,
    show find_best_move nimGame nim15 1 () entropy1 20 false = some 2 from rfl] at h
  exact absurd (Option.some.inj h) (by decide)

/-- C6: over any number `N` of main-loop iterations from `find_best_move`'s
initial one-node arena, the arena never grows beyond `N + 1` nodes: the
rollout applies moves in place and never touches the tree, and each
iteration's expansion appends at most one node — regardless of rollout
length (the rollout fuel is unconstrained here). -/
theorem tree_size_bound {S P M C : Type} (g : GameSpec S P M C) [DecidableEq P]
    (s : S) (jm : P) (ctx : C) (e : Rng) (fuel N : Nat)
    (st' : SearchTree S P M × Rng × C)
    (h : iterateSteps g fuel N (initState g s jm ctx e) = some st') :
    st'.1.length ≤ N + 1 := by
  have hlen := iterateSteps_length_le N (initState g s jm ctx e) st' h
  have hinit : (initState g s jm ctx e).1.length = 1 := rfl
  omega

/-- Witness for C6: one Nim iteration from the initial arena yields a tree
of at most two nodes. -/
theorem tree_size_bound_witness :
    ∃ st', iterateSteps nimGame 20 1 (initState nimGame nim15 1 () entropy0) = some st' ∧
      st'.1.length ≤ 2 :=
  ⟨_, rfl, tree_size_bound nimGame nim15 1 () entropy0 20 1 _ rfl⟩

/-- C5: (a) for every well-formed arena, backpropagation applies the
statistics update to the working node and to each of its strict ancestors
exactly once — the update path `i :: ancestors t i` has no duplicates,
contains the root, and every node's visit count grows by exactly 1 on the
path and 0 off it; (b) consequently, after `N` successful iterations from
`find_best_move`'s initial arena the root's own `visits` equals `N`. -/
theorem backprop_once_per_path_and_root_visits {S P M C : Type} (g : GameSpec S P M C)
    [DecidableEq P] :
    (∀ (t : SearchTree S P M) (i : Nat) (n : SearchNode S P M) (res : List P),
      ParentWF t → t.get? i = some n →
      (i :: ancestors t i).Nodup ∧ 0 ∈ i :: ancestors t i ∧
      ∀ j, nodeVisits (backpropagate t i res) j =
        nodeVisits t j + (if j ∈ i :: ancestors t i then 1 else 0)) ∧
    (∀ (s : S) (jm : P) (ctx : C) (e : Rng) (fuel N : Nat)
      (st' : SearchTree S P M × Rng × C),
      iterateSteps g fuel N (initState g s jm ctx e) = some st' →
      nodeVisits st'.1 0 = N) := by
  constructor
  · intro t i n res hwf hni
    obtain ⟨hnd, hz, _⟩ := ancestors_nodup_zero hwf hni
    exact ⟨hnd, hz, backpropagate_visits hwf hni res⟩
  · intro s jm ctx e fuel N st' h
    have hv := iterateSteps_root_visits N (initState g s jm ctx e) st' h
      (initState_parentWF g s jm ctx e)
    have h0 := initState_root_visits g s jm ctx e
    omega

/-- Witness for C5: part (a) at a concrete one-node arena and result `[0]`
(the root-only path is duplicate-free, contains the root, and the root's
visits grow by exactly 1), and part (b) on a two-iteration Nim run whose
root ends with exactly 2 visits. -/
theorem backprop_once_per_path_and_root_visits_witness :
    ((0 :: ancestors sampleTree 0).Nodup ∧ 0 ∈ 0 :: ancestors sampleTree 0 ∧
      ∀ j, nodeVisits (backpropagate sampleTree 0 [0]) j =
        nodeVisits sampleTree j + (if j ∈ 0 :: ancestors sampleTree 0 then 1 else 0)) ∧
    ∃ st', iterateSteps nimGame 20 2 (initState nimGame nim15 1 () entropy0) = some st' ∧
      nodeVisits st'.1 0 = 2 := by
  constructor
  · refine (backprop_once_per_path_and_root_visits dupGame).1 sampleTree 0 sampleRoot [0]
      ?_ rfl
    intro i n hn
    cases i with
    | zero =>
      cases hn
      exact ⟨fun _ => rfl, fun p hp => Option.noConfusion hp⟩
    | succ i => exact Option.noConfusion hn
  · exact ⟨_, rfl,
      (backprop_once_per_path_and_root_visits nimGame).2 nim15 1 () entropy0 20 2 _ rfl⟩

/-- C3: the UCT score is `wins / visits + sqrt(2 ln(parent_visits) /
visits)` (over the real-number idealization of `f32`), and
`select_most_promising_child`, on a node whose children all carry at least
one visit, returns a child with the maximal score; among equally scored
children the one earliest in the current child order is returned (every
child strictly before it scores strictly lower), reflecting the stable
descending sort whose first element is taken. -/
theorem select_most_promising_child_spec {S P M : Type} (t : SearchTree S P M) (i : Nat)
    (node : SearchNode S P M) (hni : t.get? i = some node)
    (hne : node.children ≠ [])
    (hv : ∀ c ∈ node.children, (1 : ℤ) ≤ nodeVisits t c) :
    (∀ (m : SearchNode S P M) (pv : ℝ), expectation m pv =
      (m.wins : ℝ) / (m.visits : ℝ) + Real.sqrt (2 * Real.log pv / (m.visits : ℝ))) ∧
    ∃ t' ci, select_most_promising_child t i = some (t', ci) ∧ ci ∈ node.children ∧
      (∀ d ∈ node.children,
        expectationAt t (node.visits : ℝ) d ≤ expectationAt t (node.visits : ℝ) ci) ∧
      ∃ pre post, node.children = pre ++ ci :: post ∧
        ∀ d ∈ pre,
          expectationAt t (node.visits : ℝ) d < expectationAt t (node.visits : ℝ) ci := by
  refine ⟨fun m pv => rfl, ?_⟩
  have hcmp : (fun a b => (compare (expectationAt t (node.visits : ℝ) a)
        (expectationAt t (node.visits : ℝ) b)).swap) =
      (fun a b => compare (expectationAt t (node.visits : ℝ) b)
        (expectationAt t (node.visits : ℝ) a)) :=
    funext fun a => funext fun b => compare_swap_eq _ _
  cases hfb : firstBestByCmp
      (fun a b => compare (expectationAt t (node.visits : ℝ) b)
        (expectationAt t (node.visits : ℝ) a)) node.children with
  | none => exact absurd (firstBestByCmp_eq_none _ node.children hfb) hne
  | some c =>
    obtain ⟨hmem, hmax, pre, post, hdec, hpre⟩ :=
      firstBestByCmp_keyDesc_spec (expectationAt t (node.visits : ℝ)) node.children c hfb
    have hsel : select_most_promising_child t i =
        some (t.set i { node with children := rustSortBy (fun a b =>
          compare (expectationAt t (node.visits : ℝ) b)
            (expectationAt t (node.visits : ℝ) a)) node.children }, c) := by
      simp only [select_most_promising_child, hni]
      rw [hcmp, head?_rustSortBy, hfb]
    exact ⟨_, c, hsel, hmem, hmax, pre, post, hdec, hpre⟩

/-- Witness for C3: a concrete arena whose root has one visit (so the
exploration bonus vanishes: `ln 1 = 0`) and two once-visited children with
win totals 1 and 0; the hypotheses hold and the selection conclusion
follows. -/
theorem select_most_promising_child_spec_witness :
    (selTree.get? 0 = some selRoot) ∧ (selRoot.children ≠ []) ∧
    (∀ c ∈ selRoot.children, (1 : ℤ) ≤ nodeVisits selTree c) ∧
    ((∀ (m : SearchNode ℤ ℤ ℤ) (pv : ℝ), expectation m pv =
      (m.wins : ℝ) / (m.visits : ℝ) + Real.sqrt (2 * Real.log pv / (m.visits : ℝ))) ∧
    ∃ t' ci, select_most_promising_child selTree 0 = some (t', ci) ∧
      ci ∈ selRoot.children ∧
      (∀ d ∈ selRoot.children,
        expectationAt selTree (selRoot.visits : ℝ) d ≤
          expectationAt selTree (selRoot.visits : ℝ) ci) ∧
      ∃ pre post, selRoot.children = pre ++ ci :: post ∧
        ∀ d ∈ pre,
          expectationAt selTree (selRoot.visits : ℝ) d <
            expectationAt selTree (selRoot.visits : ℝ) ci) :=
  ⟨rfl, by decide, by decide,
    select_most_promising_child_spec selTree 0 selRoot rfl (by decide) (by decide)⟩

/-- C2: whenever `find_best_move` returns a move, that run consists of
exactly `max_iterations` select/expand/simulate/backpropagate cycles
(`iterateSteps … N` from the initial arena), and the returned move is the
`last_move` of the root's most visited child: a child whose `visits` is
maximal among the root's children (robust-child selection by visit count,
not by win rate), with ties resolved toward the last such child. -/
theorem find_best_move_robust_child {S P M C : Type} (g : GameSpec S P M C) [DecidableEq P]
    (s : S) (N : Nat) (ctx : C) (e : Rng) (fuel : Nat) (d : Bool) (m : M)
    (h : find_best_move g s N ctx e fuel d = some m) :
    ∃ jm t rng' ctx' root ci c,
      (g.all_players s).getLast? = some jm ∧
      iterateSteps g fuel N (initState g s jm ctx e) = some (t, rng', ctx') ∧
      t.get? 0 = some root ∧
      most_visited_child t root = some ci ∧
      t.get? ci = some c ∧
      c.last_move = some m ∧
      ci ∈ root.children ∧
      (∀ d' ∈ root.children, nodeVisits t d' ≤ nodeVisits t ci) ∧
      ∃ pre post, root.children = pre ++ ci :: post ∧
        ∀ d' ∈ post, nodeVisits t d' < nodeVisits t ci := by
  cases hpl : (g.all_players s).getLast? with
  | none =>
    simp only [find_best_move, hpl] at h
    exact Option.noConfusion h
  | some jm =>
    simp only [find_best_move, hpl] at h
    cases hit : iterateSteps g fuel N (initState g s jm ctx e) with
    | none =>
      rw [hit] at h
      exact Option.noConfusion h
    | some st' =>
      obtain ⟨t, rng', ctx'⟩ := st'
      simp only [hit] at h
      cases hroot : t.get? 0 with
      | none =>
        rw [hroot] at h
        exact Option.noConfusion h
      | some root =>
        simp only [hroot] at h
        cases hmv : most_visited_child t root with
        | none =>
          rw [hmv] at h
          exact Option.noConfusion h
        | some ci =>
          simp only [hmv] at h
          cases hcn : t.get? ci with
          | none =>
            rw [hcn] at h
            exact Option.noConfusion h
          | some c =>
            simp only [hcn] at h
            have hne : root.children ≠ [] := by
              intro hnil
              rw [show most_visited_child t root =
                  maxByKeyLast (fun x => nodeVisits t x) root.children from rfl, hnil] at hmv
              exact Option.noConfusion hmv
            obtain ⟨c', hc', hmem, hmax, pre, post, hdec, hpost⟩ :=
              maxByKeyLast_spec (fun x => nodeVisits t x) root.children hne
            have hci : ci = c' := by
              rw [show most_visited_child t root =
                maxByKeyLast (fun x => nodeVisits t x) root.children from rfl] at hmv
              rw [hmv] at hc'
              exact Option.some.inj hc'
            subst hci
            exact ⟨jm, t, rng', ctx', root, ci, c, rfl, hit, hroot, hmv, hcn, h,
              hmem, hmax, pre, post, hdec, hpost⟩

/-- Witness for C2: the two-iteration Nim run (total 15, constant-zero
entropy) returns move 2, and the theorem's characterization holds there. -/
theorem find_best_move_robust_child_witness :
    ∃ jm t rng' ctx' root ci c,
      (nimGame.all_players nim15).getLast? = some jm ∧
      iterateSteps nimGame 20 2 (initState nimGame nim15 jm () entropy0) =
        some (t, rng', ctx') ∧
      t.get? 0 = some root ∧
      most_visited_child t root = some ci ∧
      t.get? ci = some c ∧
      c.last_move = some 2 ∧
      ci ∈ root.children ∧
      (∀ d' ∈ root.children, nodeVisits t d' ≤ nodeVisits t ci) ∧
      ∃ pre post, root.children = pre ++ ci :: post ∧
        ∀ d' ∈ post, nodeVisits t d' < nodeVisits t ci :=
  find_best_move_robust_child nimGame nim15 2 () entropy0 20 false 2 rfl

/-- C7 (amended): at every point of a search, every node's `untried_moves`
together with its children's `last_move`s form, as a multiset, exactly the
legal-move list of the node's (immutable) state — so as sets their union is
the legal-move set; and whenever that legal-move list has no duplicates,
`untried_moves` and the children's `last_move`s are disjoint.  Expansion
preserves this by removing the picked occurrence from `untried_moves` and
adding exactly one child carrying it.  (With duplicate legal moves the
disjointness clause of the original claim fails — see the
counterexample.) -/
theorem untried_children_move_partition {S P M C : Type} (g : GameSpec S P M C)
    [DecidableEq P] (s : S) (jm : P) (ctx : C) (e : Rng) (fuel N : Nat)
    (st' : SearchTree S P M × Rng × C)
    (h : iterateSteps g fuel N (initState g s jm ctx e) = some st') :
    ∀ i n, st'.1.get? i = some n →
      (n.untried_moves ++ childLastMoves st'.1 n).Perm (g.all_moves n.state) ∧
      (∀ mv, (mv ∈ n.untried_moves ∨ mv ∈ childLastMoves st'.1 n) ↔
        mv ∈ g.all_moves n.state) ∧
      ((g.all_moves n.state).Nodup →
        n.untried_moves.Disjoint (childLastMoves st'.1 n)) := by
  obtain ⟨-, hmv⟩ := iterateSteps_movesInv N (initState g s jm ctx e) st' h
    (initState_childrenWF g s jm ctx e) (initState_movesInv g s jm ctx e)
  intro i n hn
  have hperm := hmv i n hn
  refine ⟨hperm, ?_, ?_⟩
  · intro mv
    rw [← hperm.mem_iff, List.mem_append]
  · intro hnd
    have hnd2 : (n.untried_moves ++ childLastMoves st'.1 n).Nodup :=
      hperm.nodup_iff.mpr hnd
    exact (List.nodup_append.mp hnd2).2.2

/-- Witness for C7 (amended): after one Nim iteration every node satisfies
the move-partition property. -/
theorem untried_children_move_partition_witness :
    ∃ st', iterateSteps nimGame 20 1 (initState nimGame nim15 1 () entropy0) = some st' ∧
      ∀ i n, st'.1.get? i = some n →
        (n.untried_moves ++ childLastMoves st'.1 n).Perm (nimGame.all_moves n.state) ∧
        (∀ mv, (mv ∈ n.untried_moves ∨ mv ∈ childLastMoves st'.1 n) ↔
          mv ∈ nimGame.all_moves n.state) ∧
        ((nimGame.all_moves n.state).Nodup →
          n.untried_moves.Disjoint (childLastMoves st'.1 n)) :=
  ⟨_, rfl, untried_children_move_partition nimGame nim15 1 () entropy0 20 1 _ rfl⟩

/-- Counterexample for C7 as stated: in a game whose legal-move list at the
root holds the same move twice, one search iteration expands one occurrence
and leaves the other untried, so the root's `untried_moves` and its
children's `last_move`s are not disjoint. -/
theorem untried_children_disjointness_fails :
    (match iterateSteps dupGame 5 1 (initState dupGame 1 1 () entropy0) with
     | some (t, _, _) => violatesDisjointness t
     | none => false) = true := rfl

end Tactician
